import Mathlib

/-!
Verification of the export subsystem: symbolic shape constraints
(`torch/_export/non_strict_utils.py`), the lift/unlift graph rewriter
(`torch/export/_unlift.py`), and the serialization envelope
(`torch/_export/__init__.py`), as a shallow embedding in Lean.

Python dicts are modelled as association lists with insertion-order
preserving, overwrite-in-place semantics (`dictInsert` / `assocGet?`),
matching CPython dict behaviour. Python string helpers (`split`,
`startswith`, `str` of an int) are modelled structurally over the
character list of the string so that every definition evaluates.
-/

set_option maxHeartbeats 1000000

/-- Association-list lookup; keys are unique because insertion goes through
`dictInsert`, so the first match is the binding. -/
def assocGet? {K V : Type} [DecidableEq K] : List (K × V) → K → Option V
  | [], _ => none
  | (k, v) :: rest, k' => if k = k' then some v else assocGet? rest k'

/-- Python dict assignment `d[k] = v`: overwrite in place if the key exists
(keeping its position), otherwise append at the end. -/
def dictInsert {K V : Type} [DecidableEq K] : List (K × V) → K → V → List (K × V)
  | [], k, v => [(k, v)]
  | (k', v') :: rest, k, v =>
      if k' = k then (k, v) :: rest else (k', v') :: dictInsert rest k v

theorem assocGet?_dictInsert {K V : Type} [DecidableEq K]
    (m : List (K × V)) (k k' : K) (v : V) :
    assocGet? (dictInsert m k v) k' =
      if k = k' then some v else assocGet? m k' := by
  induction m with
  | nil => by_cases h : k = k' <;> simp [dictInsert, assocGet?, h]
  | cons p rest ih =>
    obtain ⟨k0, v0⟩ := p
    by_cases h0 : k0 = k
    · subst h0
      by_cases h : k0 = k' <;> simp [dictInsert, assocGet?, h]
    · by_cases h : k0 = k'
      · subst h
        have hne : ¬ k = k0 := fun hh => h0 hh.symm
        simp [dictInsert, assocGet?, h0, hne]
      · simp [dictInsert, assocGet?, h0, h, ih]

theorem assocGet?_mem {K V : Type} [DecidableEq K]
    (m : List (K × V)) (k : K) (v : V) (h : assocGet? m k = some v) :
    (k, v) ∈ m := by
  induction m with
  | nil => simp [assocGet?] at h
  | cons p rest ih =>
    obtain ⟨k0, v0⟩ := p
    by_cases h0 : k0 = k
    · subst h0
      simp [assocGet?] at h
      subst h
      exact List.mem_cons_self _ _
    · simp [assocGet?, h0] at h
      exact List.mem_cons_of_mem _ (ih h)

/-- Split a character list at every occurrence of the separator, Python
`str.split(sep)` semantics for a one-character separator: the result is
always nonempty, and empty pieces are kept. -/
def splitCharList (c : Char) : List Char → List (List Char)
  | [] => [[]]
  | x :: rest =>
    let r := splitCharList c rest
    if x = c then [] :: r
    else
      match r with
      | [] => [[x]]
      | h :: t => (x :: h) :: t

/-- Python `s.split('.')`, structurally over the string's characters. -/
def splitDots (s : String) : List String :=
  (splitCharList '.' s.data).map String.mk

/-- Python `s.split('/', 1)[1]`: everything after the first slash. -/
def afterFirstSlash (s : String) : String :=
  match splitCharList '/' s.data with
  | [] => ""
  | _ :: rest => String.mk (List.intercalate ['/'] rest)

def charsStartWith : List Char → List Char → Bool
  | _, [] => true
  | [], _ :: _ => false
  | a :: as, b :: bs => a = b && charsStartWith as bs

/-- Python `s.startswith(p)`. -/
def strStartsWith (s p : String) : Bool :=
  charsStartWith s.data p.data

def digitChar (d : Nat) : Char := Char.ofNat (48 + d)

def natReprAux : Nat → Nat → List Char
  | 0, _ => []
  | fuel + 1, n =>
    if n < 10 then [digitChar n]
    else natReprAux fuel (n / 10) ++ [digitChar (n % 10)]

/-- Python `str(n)` for a nonnegative int: decimal digits. -/
def natRepr (n : Nat) : String := String.mk (natReprAux (n + 1) n)

/-! ## Serialization envelope (`torch/_export/__init__.py`, `load`) -/

/-- Errors raised by `load`: the `assert len(version) == len(SCHEMA_VERSION)`
(an AssertionError on component-count mismatch), the `RuntimeError` raised
when the major components differ, and missing archive payloads. -/
inductive LoadError where
  | versionCountMismatch : LoadError
  | schemaVersionMismatch : LoadError
  | missingPayload : String → LoadError
deriving DecidableEq, Repr

/-- The version gate of `load` (lines 257-265): split the version payload on
dots, assert the component count equals the schema's, then compare the first
components as strings. -/
def versionGate (versionFile : String) (schemaVersion : List Nat) :
    Except LoadError Unit :=
  let version := splitDots versionFile
  if version.length = schemaVersion.length then
    if version.headD "" = natRepr (schemaVersion.headD 0) then Except.ok ()
    else Except.error LoadError.schemaVersionMismatch
  else Except.error LoadError.versionCountMismatch

theorem versionGate_eq (v : String) (schema : List Nat) :
    versionGate v schema =
      if (splitDots v).length = schema.length then
        if (splitDots v).headD "" = natRepr (schema.headD 0) then Except.ok ()
        else Except.error LoadError.schemaVersionMismatch
      else Except.error LoadError.versionCountMismatch := rfl

/-- Modelled from the spec: `SCHEMA_VERSION` is imported from `.serde.schema`,
which is not among the sources. The spec describes the archive `version`
payload as a literal dotted integer string, e.g. "1.2.3", so the running
schema version is modelled as a three-component version. Only its component
count and major component are ever inspected by the gate. -/
def SCHEMA_VERSION : List Nat := [1, 2, 3]

/-- An archive is a zip file: a list of named byte payloads. -/
structure Archive where
  files : List (String × String)
deriving DecidableEq, Repr

def readArchiveFile? (ar : Archive) (name : String) : Option String :=
  assocGet? ar.files name

/-- Accumulator for the payload scan of `load` (lines 271-292). -/
structure LoadedPayloads where
  serializedExportedProgram : Option String
  serializedStateDict : Option String
  serializedConstants : Option String
  extraFiles : List (String × String)
  deprecationWarnings : Nat
deriving DecidableEq, Repr

/-- The payload scan of `load`: walk the archive entries, accepting both the
current `.pt` names and the legacy `.json` names for state/constants (the
legacy names emit a deprecation warning), and collecting `extra_files/`. -/
def scanPayloads (files : List (String × String)) : LoadedPayloads :=
  files.foldl
    (fun acc nc =>
      if nc.1 = "serialized_exported_program.json" then
        { acc with serializedExportedProgram := some nc.2 }
      else if nc.1 = "serialized_state_dict.json" then
        { acc with serializedStateDict := some nc.2,
                   deprecationWarnings := acc.deprecationWarnings + 1 }
      else if nc.1 = "serialized_constants.json" then
        { acc with serializedConstants := some nc.2,
                   deprecationWarnings := acc.deprecationWarnings + 1 }
      else if nc.1 = "serialized_state_dict.pt" then
        { acc with serializedStateDict := some nc.2 }
      else if nc.1 = "serialized_constants.pt" then
        { acc with serializedConstants := some nc.2 }
      else if strStartsWith nc.1 "extra_files" then
        { acc with extraFiles := acc.extraFiles ++ [(afterFirstSlash nc.1, nc.2)] }
      else acc)
    ⟨none, none, none, [], 0⟩

/-- `load` (lines 244-306): read the `version` payload, run the version gate,
then scan and require the three payloads of the serialized artifact. The
deserialized program is represented by the payload triple. -/
def load (ar : Archive) (schemaVersion : List Nat) :
    Except LoadError (String × String × String) :=
  match readArchiveFile? ar "version" with
  | none => Except.error (LoadError.missingPayload "version")
  | some v =>
    match versionGate v schemaVersion with
    | Except.error e => Except.error e
    | Except.ok _ =>
      let p := scanPayloads ar.files
      match p.serializedExportedProgram, p.serializedStateDict,
            p.serializedConstants with
      | some ep, some sd, some c => Except.ok (ep, sd, c)
      | _, _, _ => Except.error (LoadError.missingPayload "serialized artifact")

theorem load_gate_error (ar : Archive) (v : String) (schema : List Nat)
    (e : LoadError) (hv : readArchiveFile? ar "version" = some v)
    (hg : versionGate v schema = Except.error e) :
    load ar schema = Except.error e := by
  simp [load, hv, hg]

/-- C10: `load` requires the archive's version string to have exactly the same
number of dot-separated components as the running schema version; a mismatch
fails with the count assertion — before and regardless of the major-version
comparison (the error is the count error whether or not the majors agree). -/
theorem load_component_count_gate (ar : Archive) (v : String)
    (schemaVersion : List Nat)
    (hv : readArchiveFile? ar "version" = some v)
    (hcount : (splitDots v).length ≠ schemaVersion.length) :
    load ar schemaVersion = Except.error LoadError.versionCountMismatch := by
  refine load_gate_error ar v schemaVersion _ hv ?_
  rw [versionGate_eq, if_neg hcount]

/-- Witness for C10 at a concrete archive: version "1.2" against the running
three-component schema, with matching major component "1". -/
theorem load_component_count_gate_witness :
    readArchiveFile? ⟨[("version", "1.2")]⟩ "version" = some "1.2" ∧
    (splitDots "1.2").length ≠ SCHEMA_VERSION.length ∧
    (splitDots "1.2").headD "" = natRepr (SCHEMA_VERSION.headD 0) ∧
    load ⟨[("version", "1.2")]⟩ SCHEMA_VERSION =
      Except.error LoadError.versionCountMismatch :=
  ⟨by decide, by decide, by decide,
   load_component_count_gate ⟨[("version", "1.2")]⟩ "1.2" SCHEMA_VERSION
     (by decide) (by decide)⟩

/-- C6 counterexample: an archive whose version "1.2.3.0" has a major
component equal to the running schema's major component nevertheless fails the
version gate (component-count assertion), refuting "succeeds past the version
gate for every archive whose major component matches". -/
theorem load_major_match_still_fails :
    ((splitDots "1.2.3.0").headD "" = natRepr (SCHEMA_VERSION.headD 0)) ∧
    load ⟨[("version", "1.2.3.0")]⟩ SCHEMA_VERSION =
      Except.error LoadError.versionCountMismatch := by
  constructor
  · decide
  · rfl

/-- C6 as amended: `load` fails hard (no program is produced) for every
archive whose major component differs from the running schema's; an archive
passes the version gate exactly when its version has the schema's component
count and a matching major component — a major-matching archive with a
different component count still fails. -/
theorem load_version_gate_amended (ar : Archive) (v : String)
    (schemaVersion : List Nat)
    (hv : readArchiveFile? ar "version" = some v) :
    ((splitDots v).headD "" ≠ natRepr (schemaVersion.headD 0) →
       ∃ e, load ar schemaVersion = Except.error e) ∧
    ((splitDots v).length ≠ schemaVersion.length →
       ∃ e, load ar schemaVersion = Except.error e) ∧
    ((splitDots v).length = schemaVersion.length →
     (splitDots v).headD "" = natRepr (schemaVersion.headD 0) →
       versionGate v schemaVersion = Except.ok ()) := by
  refine ⟨?_, ?_, ?_⟩
  · intro hmaj
    by_cases hcount : (splitDots v).length = schemaVersion.length
    · refine ⟨LoadError.schemaVersionMismatch,
        load_gate_error ar v schemaVersion _ hv ?_⟩
      rw [versionGate_eq, if_pos hcount, if_neg hmaj]
    · refine ⟨LoadError.versionCountMismatch,
        load_gate_error ar v schemaVersion _ hv ?_⟩
      rw [versionGate_eq, if_neg hcount]
  · intro hcount
    refine ⟨LoadError.versionCountMismatch,
      load_gate_error ar v schemaVersion _ hv ?_⟩
    rw [versionGate_eq, if_neg hcount]
  · intro hcount hmaj
    rw [versionGate_eq, if_pos hcount, if_pos hmaj]

/-- Witness for the amended C6: a major-mismatching archive fails, and a
count-and-major matching version passes the gate. -/
theorem load_version_gate_amended_witness :
    (∃ e, load ⟨[("version", "9.2.3")]⟩ SCHEMA_VERSION = Except.error e) ∧
    versionGate "1.9.9" SCHEMA_VERSION = Except.ok () := by
  have h := load_version_gate_amended ⟨[("version", "9.2.3")]⟩ "9.2.3"
    SCHEMA_VERSION (by decide)
  have h2 := load_version_gate_amended ⟨[("version", "1.9.9")]⟩ "1.9.9"
    SCHEMA_VERSION (by decide)
  exact ⟨h.1 (by decide), h2.2.2 (by decide) (by decide)⟩

/-! ## Constraint solver / guard producer
(`torch/_export/non_strict_utils.py`, `make_constraints`) -/

/-- A named input dimension (`InputDim(input_name=..., dim=...)`). -/
structure InputDim where
  input_name : String
  dim : Nat
deriving DecidableEq, Repr

/-- A concrete integer range of a symbol (`shape_env.var_to_range`). -/
structure SymRange where
  lo : Int
  hi : Int
deriving DecidableEq, Repr

/-- One dimension of a placeholder's fake value: a concrete size, or a
symbol expression (`torch.SymInt`) identified by its `d.node.expr`. -/
inductive DimVal where
  | static : Nat → DimVal
  | sym : String → DimVal
deriving DecidableEq, Repr

/-- `node.meta["val"]` of a graph node: a custom-object argument or a fake
tensor carrying per-dimension values; `none` models the Python `None`. -/
inductive NodeVal where
  | customObj : NodeVal
  | tensor : List DimVal → NodeVal
deriving DecidableEq, Repr

/-- A graph node as seen by `make_constraints`: `op`, `name`, `meta["val"]`. -/
structure PNode where
  op : String
  name : String
  val : Option NodeVal
deriving DecidableEq, Repr

/-- `defaultdict(list)` append: `input_dims[k].append(v)`. -/
def bucketAdd {K V : Type} [DecidableEq K] :
    List (K × List V) → K → V → List (K × List V)
  | [], k, v => [(k, [v])]
  | (k', vs) :: rest, k, v =>
      if k' = k then (k', vs ++ [v]) :: rest else (k', vs) :: bucketAdd rest k v

theorem assocGet?_bucketAdd {K V : Type} [DecidableEq K]
    (m : List (K × List V)) (k k' : K) (v : V) :
    assocGet? (bucketAdd m k v) k' =
      if k = k' then some (((assocGet? m k).getD []) ++ [v])
      else assocGet? m k' := by
  induction m with
  | nil => by_cases h : k = k' <;> simp [bucketAdd, assocGet?, h]
  | cons p rest ih =>
    obtain ⟨k0, vs0⟩ := p
    by_cases h0 : k0 = k
    · subst h0
      by_cases h : k0 = k' <;> simp [bucketAdd, assocGet?, h]
    · by_cases h : k0 = k'
      · subst h
        have hne : ¬ k = k0 := fun hh => h0 hh.symm
        simp [bucketAdd, assocGet?, h0, hne]
      · simp [bucketAdd, assocGet?, h0, h, ih]

/-- Python `enumerate`, starting at the given index. -/
def idxFrom {α : Type} : Nat → List α → List (Nat × α)
  | _, [] => []
  | i, a :: rest => (i, a) :: idxFrom (i + 1) rest

/-- One step of the placeholder walk for a single symbolic dimension:
`range_constraints[expr] = shape_env.var_to_range[expr]` and
`input_dims[expr].append(InputDim(input_name=node.name, dim=i))`. -/
def rangeBucketStep (varToRange : String → SymRange)
    (acc : List (String × SymRange) × List (String × List InputDim))
    (p : String × InputDim) :
    List (String × SymRange) × List (String × List InputDim) :=
  (dictInsert acc.1 p.1 (varToRange p.1), bucketAdd acc.2 p.1 p.2)

/-- The placeholder walk of `make_constraints` (lines 173-183): for every
placeholder node in graph order, skipping nodes whose value is `None` or a
`CustomObjArgument`, and for every dimension index in order, record the
frozen range of each symbolic dimension and append an `InputDim` to the
per-symbol-expression bucket. -/
def collectRangesAndBuckets (varToRange : String → SymRange)
    (nodes : List PNode) :
    List (String × SymRange) × List (String × List InputDim) :=
  nodes.foldl
    (fun acc node =>
      if node.op = "placeholder" then
        match node.val with
        | none => acc
        | some NodeVal.customObj => acc
        | some (NodeVal.tensor shape) =>
            (idxFrom 0 shape).foldl
              (fun acc2 p =>
                match p.2 with
                | DimVal.static _ => acc2
                | DimVal.sym s =>
                    rangeBucketStep varToRange acc2 (s, ⟨node.name, p.1⟩))
              acc
      else acc)
    ([], [])

/-- Lines 185-189: for every bucket, in bucket insertion order, pair the
primary (first-inserted) entry with each subsequent entry. -/
def eqConstraintsOf (buckets : List (String × List InputDim)) :
    List (InputDim × InputDim) :=
  buckets.foldl
    (fun acc b =>
      match b.2 with
      | [] => acc
      | primary :: others => acc ++ others.map (fun other => (primary, other)))
    []

/-- The inputs of `make_constraints` that come from the external shape
environment and solver: the outcome of `produce_guards` (the message of the
captured `ConstraintViolationError`, if one was raised), the solver's forced
specializations, the summary renderer `dim_constraints.prettify_results`
(a function of the captured violation and the forced specializations), the
frozen `var_to_range` map, and the traced graph's nodes. -/
structure SolverInput where
  guardViolation : Option String
  forcedSpecializations : List String
  summary : Option String → List String → String
  varToRange : String → SymRange
  nodes : List PNode

/-- `make_constraints` (lines 134-191): guard production runs with any
`ConstraintViolationError` captured rather than escaping; the shape
environment is frozen; the dimension-constraint solver runs and the summary
is rendered; then the captured violation is re-raised with the summary
appended, or a consolidated violation carrying only the summary is raised if
any forced specialization was found; otherwise the placeholder walk produces
the range and equality constraints. -/
def make_constraints (inp : SolverInput) :
    Except String (List (String × SymRange) × List (InputDim × InputDim)) :=
  let fs := inp.forcedSpecializations
  let msg := inp.summary inp.guardViolation fs
  match inp.guardViolation with
  | some e => Except.error (e ++ msg)
  | none =>
    if fs = [] then
      let rb := collectRangesAndBuckets inp.varToRange inp.nodes
      Except.ok (rb.1, eqConstraintsOf rb.2)
    else Except.error msg

/-- C1: `make_constraints` never raises immediately on a guard-production
conflict: a captured violation is re-raised with the rendered solver summary
appended; with no violation but at least one forced specialization, a
consolidated violation carrying only the summary is raised; and it returns
successfully exactly when neither a violation nor a forced specialization
exists. -/
theorem make_constraints_violation_flow (inp : SolverInput) :
    (∀ e, inp.guardViolation = some e →
       make_constraints inp =
         Except.error (e ++ inp.summary (some e) inp.forcedSpecializations)) ∧
    (inp.guardViolation = none → inp.forcedSpecializations ≠ [] →
       make_constraints inp =
         Except.error (inp.summary none inp.forcedSpecializations)) ∧
    ((∃ r, make_constraints inp = Except.ok r) ↔
       inp.guardViolation = none ∧ inp.forcedSpecializations = []) := by
  refine ⟨?_, ?_, ?_⟩
  · intro e he
    simp [make_constraints, he]
  · intro hg hf
    simp [make_constraints, hg, hf]
  · constructor
    · rintro ⟨r, hr⟩
      cases hg : inp.guardViolation with
      | some e => simp [make_constraints, hg] at hr
      | none =>
        refine ⟨rfl, ?_⟩
        by_cases hf : inp.forcedSpecializations = []
        · exact hf
        · simp [make_constraints, hg, hf] at hr
    · rintro ⟨hg, hf⟩
      refine ⟨((collectRangesAndBuckets inp.varToRange inp.nodes).1,
        eqConstraintsOf (collectRangesAndBuckets inp.varToRange inp.nodes).2), ?_⟩
      simp [make_constraints, hg, hf]

/-- Witness for C1: a captured violation is re-raised with the summary
appended, and a violation-free, specialization-free run succeeds. -/
theorem make_constraints_violation_flow_witness :
    make_constraints
        ⟨some "violation", [], fun _ _ => " summary", fun _ => ⟨0, 0⟩, []⟩ =
      Except.error "violation summary" ∧
    (∃ r, make_constraints
        ⟨none, [], fun _ _ => " summary", fun _ => ⟨0, 0⟩, []⟩ =
      Except.ok r) :=
  ⟨(make_constraints_violation_flow
      ⟨some "violation", [], fun _ _ => " summary", fun _ => ⟨0, 0⟩, []⟩).1
      "violation" rfl,
   ((make_constraints_violation_flow
      ⟨none, [], fun _ _ => " summary", fun _ => ⟨0, 0⟩, []⟩).2.2).mpr
      ⟨rfl, rfl⟩⟩

/-- The sequence of (symbol, InputDim) pairs visited by the placeholder walk,
in graph-input order and dimension-index order. -/
def placeholderSymDims (nodes : List PNode) : List (String × InputDim) :=
  nodes.flatMap (fun node =>
    if node.op = "placeholder" then
      match node.val with
      | some (NodeVal.tensor shape) =>
          (idxFrom 0 shape).filterMap (fun p =>
            match p.2 with
            | DimVal.sym s => some (s, (⟨node.name, p.1⟩ : InputDim))
            | DimVal.static _ => none)
      | _ => []
    else [])

/-- Occurrence list of a symbol expression: the `InputDim`s at which it
appears, in walk order; its head is the first-seen occurrence. -/
def symOccurrences (nodes : List PNode) (s : String) : List InputDim :=
  (placeholderSymDims nodes).filterMap
    (fun p => if p.1 = s then some p.2 else none)

theorem innerFold_eq (vr : String → SymRange) (nm : String)
    (shape : List DimVal) :
    ∀ (i : Nat) (acc : List (String × SymRange) × List (String × List InputDim)),
    (idxFrom i shape).foldl
      (fun acc2 p =>
        match p.2 with
        | DimVal.static _ => acc2
        | DimVal.sym s => rangeBucketStep vr acc2 (s, ⟨nm, p.1⟩))
      acc
    = ((idxFrom i shape).filterMap (fun p =>
        match p.2 with
        | DimVal.sym s => some (s, (⟨nm, p.1⟩ : InputDim))
        | DimVal.static _ => none)).foldl (rangeBucketStep vr) acc := by
  induction shape with
  | nil => intro i acc; rfl
  | cons d rest ih =>
    intro i acc
    cases d with
    | static k => simpa [idxFrom] using ih (i + 1) acc
    | sym s => simp [idxFrom, ih (i + 1)]

theorem collectRangesAndBuckets_eq (vr : String → SymRange)
    (nodes : List PNode) :
    collectRangesAndBuckets vr nodes =
      (placeholderSymDims nodes).foldl (rangeBucketStep vr) ([], []) := by
  suffices h : ∀ (acc : List (String × SymRange) × List (String × List InputDim)),
      nodes.foldl
        (fun acc node =>
          if node.op = "placeholder" then
            match node.val with
            | none => acc
            | some NodeVal.customObj => acc
            | some (NodeVal.tensor shape) =>
                (idxFrom 0 shape).foldl
                  (fun acc2 p =>
                    match p.2 with
                    | DimVal.static _ => acc2
                    | DimVal.sym s =>
                        rangeBucketStep vr acc2 (s, ⟨node.name, p.1⟩))
                  acc
          else acc)
        acc
      = (placeholderSymDims nodes).foldl (rangeBucketStep vr) acc by
    exact h ([], [])
  induction nodes with
  | nil => intro acc; rfl
  | cons node rest ih =>
    intro acc
    by_cases hop : node.op = "placeholder"
    · cases hval : node.val with
      | none =>
        simp [placeholderSymDims, hop, hval, List.flatMap_cons, ih]
      | some nv =>
        cases nv with
        | customObj =>
          simp [placeholderSymDims, hop, hval, List.flatMap_cons, ih]
        | tensor shape =>
          simp only [List.foldl_cons, hop, if_pos, hval]
          rw [innerFold_eq, ih]
          simp [placeholderSymDims, hop, hval, List.flatMap_cons,
            List.foldl_append]
    · simp [placeholderSymDims, hop, List.flatMap_cons, ih]

/-- Normalize an occurrence list into the optional bucket value: a symbol
with no occurrences has no bucket. -/
def occOpt {V : Type} : List V → Option (List V)
  | [] => none
  | v :: vs => some (v :: vs)

theorem bucketFold_lookup (vr : String → SymRange)
    (ps : List (String × InputDim)) :
    ∀ (acc : List (String × SymRange) × List (String × List InputDim))
      (s : String),
    assocGet? ((ps.foldl (rangeBucketStep vr) acc).2) s =
      match assocGet? acc.2 s with
      | none => occOpt (ps.filterMap (fun p => if p.1 = s then some p.2 else none))
      | some vs => some (vs ++ ps.filterMap (fun p => if p.1 = s then some p.2 else none)) := by
  induction ps with
  | nil =>
    intro acc s
    cases h : assocGet? acc.2 s <;> simp [occOpt, h]
  | cons p rest ih =>
    intro acc s
    obtain ⟨k, v⟩ := p
    have step : (rangeBucketStep vr acc (k, v)).2 = bucketAdd acc.2 k v := rfl
    by_cases hk : k = s
    · subst hk
      rw [List.foldl_cons, ih]
      rw [step, assocGet?_bucketAdd]
      cases h : assocGet? acc.2 k with
      | none => simp [occOpt]
      | some vs => simp [occOpt]
    · rw [List.foldl_cons, ih]
      rw [step, assocGet?_bucketAdd]
      cases h : assocGet? acc.2 s <;> simp [hk]

/-- The pairs a single bucket contributes: its primary entry paired with
each subsequent entry; empty and singleton buckets contribute nothing. -/
def tailPairs {V : Type} : List V → List (V × V)
  | [] => []
  | primary :: others => others.map (fun other => (primary, other))

theorem eqConstraintsOf_eq (buckets : List (String × List InputDim)) :
    eqConstraintsOf buckets = buckets.flatMap (fun b => tailPairs b.2) := by
  suffices h : ∀ (acc : List (InputDim × InputDim)),
      buckets.foldl
        (fun acc b =>
          match b.2 with
          | [] => acc
          | primary :: others =>
              acc ++ others.map (fun other => (primary, other)))
        acc
      = acc ++ buckets.flatMap (fun b => tailPairs b.2) by
    simpa using h []
  induction buckets with
  | nil => intro acc; simp
  | cons b rest ih =>
    intro acc
    cases hb : b.2 with
    | nil => simp [List.flatMap_cons, ih, tailPairs, hb]
    | cons primary others =>
      simp [List.flatMap_cons, ih, tailPairs, hb]

/-- C2: on success, the equality constraints of `make_constraints` are
exactly the per-bucket (primary, subsequent) pairs; the bucket of every
symbol expression is its walk-order occurrence list, so the primary element
of every induced equality is the first-seen `InputDim` of the placeholder
walk (graph input-node order, dimension index order), every later occurrence
is paired with it, and a symbol occurring at exactly one input dimension has
a singleton bucket and hence yields no equality constraint. -/
theorem make_constraints_equality_buckets (inp : SolverInput)
    (rc : List (String × SymRange)) (eqs : List (InputDim × InputDim))
    (h : make_constraints inp = Except.ok (rc, eqs)) :
    (eqs = ((collectRangesAndBuckets inp.varToRange inp.nodes).2).flatMap
        (fun b => tailPairs b.2)) ∧
    (∀ s, assocGet? ((collectRangesAndBuckets inp.varToRange inp.nodes).2) s =
        occOpt (symOccurrences inp.nodes s)) ∧
    (∀ s primary others, symOccurrences inp.nodes s = primary :: others →
        ∀ other ∈ others, (primary, other) ∈ eqs) := by
  have hok : eqs = eqConstraintsOf
      ((collectRangesAndBuckets inp.varToRange inp.nodes).2) := by
    cases hg : inp.guardViolation with
    | some e => simp [make_constraints, hg] at h
    | none =>
      by_cases hf : inp.forcedSpecializations = []
      · simp [make_constraints, hg, hf] at h
        exact h.2.symm
      · simp [make_constraints, hg, hf] at h
  have hbuckets : ∀ s,
      assocGet? ((collectRangesAndBuckets inp.varToRange inp.nodes).2) s =
        occOpt (symOccurrences inp.nodes s) := by
    intro s
    rw [collectRangesAndBuckets_eq]
    have := bucketFold_lookup inp.varToRange (placeholderSymDims inp.nodes)
      ([], []) s
    simpa [assocGet?, symOccurrences] using this
  refine ⟨by rw [hok, eqConstraintsOf_eq], hbuckets, ?_⟩
  intro s primary others hocc other hother
  have hb := hbuckets s
  rw [hocc] at hb
  have hmem : (s, primary :: others) ∈
      (collectRangesAndBuckets inp.varToRange inp.nodes).2 :=
    assocGet?_mem _ _ _ hb
  rw [hok, eqConstraintsOf_eq]
  rw [List.mem_flatMap]
  refine ⟨(s, primary :: others), hmem, ?_⟩
  simp only [tailPairs, List.mem_map]
  exact ⟨other, hother, rfl⟩

/-- Concrete two-placeholder graph sharing symbol "s0" (inputs x and y),
used to instantiate the C2 theorem. -/
def sharedSymInput : SolverInput :=
  ⟨none, [], fun _ _ => "", fun _ => ⟨1, 1024⟩,
   [⟨"placeholder", "x", some (NodeVal.tensor [DimVal.sym "s0", DimVal.static 4])⟩,
    ⟨"placeholder", "y", some (NodeVal.tensor [DimVal.sym "s0"])⟩,
    ⟨"call_function", "add", none⟩,
    ⟨"output", "out", none⟩]⟩

/-- Witness for C2: on the shared-symbol graph the walk sees "s0" first at
(x, 0), then at (y, 0), and the emitted equality constraint pairs the
first-seen occurrence with the later one. -/
theorem make_constraints_equality_buckets_witness :
    ((⟨"x", 0⟩ : InputDim), (⟨"y", 0⟩ : InputDim)) ∈
      [((⟨"x", 0⟩ : InputDim), (⟨"y", 0⟩ : InputDim))] :=
  (make_constraints_equality_buckets sharedSymInput
      [("s0", ⟨1, 1024⟩)] [(⟨"x", 0⟩, ⟨"y", 0⟩)] rfl).2.2
    "s0" ⟨"x", 0⟩ [⟨"y", 0⟩] rfl ⟨"y", 0⟩ (by simp)

/-- The statements of `make_constraints` in source order (lines 147-171):
the `try`-guarded `produce_guards` call, the freeze assignment
`shape_env.frozen = True`, the solver steps, the summary rendering, and the
final raise-or-return. -/
inductive MCStep where
  | produceGuards
  | setFrozen
  | solve
  | removeRedundant
  | computeForcedSpecializations
  | prettifyResults
  | raiseOrReturn
deriving DecidableEq, Repr

/-- `make_constraints` in source order. The freeze sits directly after the
`try`/`except` block and before `dim_constraints.solve()`. -/
def mcProgram : List MCStep :=
  [MCStep.produceGuards, MCStep.setFrozen, MCStep.solve,
   MCStep.removeRedundant, MCStep.computeForcedSpecializations,
   MCStep.prettifyResults, MCStep.raiseOrReturn]

/-- The shape-environment state visible to `make_constraints`: the frozen
flag and the violation captured so far. -/
structure MCState where
  frozen : Bool
  capturedViolation : Option String
deriving DecidableEq, Repr

/-- Effect of each statement on the shape environment. `produce_guards` may
raise a `ConstraintViolationError`, which is captured — both branches of the
`try`/`except` fall through to the next statement and neither touches the
frozen flag; `shape_env.frozen = True` is the only write to the flag in the
export pipeline, and no later statement modifies it. -/
def mcStepRun (inp : SolverInput) (st : MCState) : MCStep → MCState
  | MCStep.produceGuards => { st with capturedViolation := inp.guardViolation }
  | MCStep.setFrozen => { st with frozen := true }
  | _ => st

/-- Shape-environment state after the first `n` statements of
`make_constraints`, from a given initial state. -/
def mcStateAfter (inp : SolverInput) (init : MCState) (n : Nat) : MCState :=
  (mcProgram.take n).foldl (mcStepRun inp) init

theorem mcStepRun_preserves_frozen (inp : SolverInput) (st : MCState)
    (step : MCStep) (h : st.frozen = true) :
    (mcStepRun inp st step).frozen = true := by
  cases step <;> simp [mcStepRun, h]

/-- C8: the dimension-constraint solver is the statement directly after the
freeze, and from the freeze on — i.e. on every prefix of length at least 2,
in particular when `solve` runs and when `make_constraints` returns or
re-raises — the shape environment's frozen flag is true, uniformly in the
guard-production outcome (the same holds whether `guardViolation` is a
captured violation or absent), and it is never reset afterwards. -/
theorem shape_env_frozen_before_solve (inp : SolverInput) (init : MCState)
    (n : Nat) (hn : 2 ≤ n) :
    mcProgram[2]? = some MCStep.solve ∧
    (mcStateAfter inp init n).frozen = true := by
  refine ⟨rfl, ?_⟩
  induction n with
  | zero => omega
  | succ m ih =>
    by_cases hm : 2 ≤ m
    · have hfm := ih hm
      rw [mcStateAfter, List.take_succ, List.foldl_append]
      cases hget : mcProgram[m]? with
      | none => simpa [mcStateAfter] using hfm
      | some step =>
        simp only [Option.toList]
        exact mcStepRun_preserves_frozen inp _ step (by simpa [mcStateAfter] using hfm)
    · have hm2 : m = 1 := by omega
      subst hm2
      simp [mcStateAfter, mcProgram, mcStepRun, List.take]

/-- Witness for C8: with a captured violation, the frozen flag is already
true when `solve` runs (prefix of length 2) and still true at the end
(prefix of length 7). -/
theorem shape_env_frozen_before_solve_witness :
    (mcStateAfter ⟨some "boom", [], fun _ _ => "", fun _ => ⟨0, 0⟩, []⟩
        ⟨false, none⟩ 2).frozen = true ∧
    (mcStateAfter ⟨some "boom", [], fun _ _ => "", fun _ => ⟨0, 0⟩, []⟩
        ⟨false, none⟩ 7).frozen = true :=
  ⟨(shape_env_frozen_before_solve
      ⟨some "boom", [], fun _ _ => "", fun _ => ⟨0, 0⟩, []⟩
      ⟨false, none⟩ 2 (by decide)).2,
   (shape_env_frozen_before_solve
      ⟨some "boom", [], fun _ _ => "", fun _ => ⟨0, 0⟩, []⟩
      ⟨false, none⟩ 7 (by decide)).2⟩

/-! ## Lift/unlift graph rewriter (`torch/export/_unlift.py`) -/

/-- An fx graph node: name, opcode, target (attribute path for `get_attr`,
function name for `call_function`), and the names of its argument nodes. -/
structure FxNode where
  name : String
  op : String
  target : String
  args : List String
deriving DecidableEq, Repr

/-- `lifted_node.replace(".", "_")`: structural separators normalized to a
flat identifier form. -/
def normTarget (t : String) : String :=
  String.mk (t.data.map (fun c => if c = '.' then '_' else c))

def countPlaceholders : List FxNode → Nat
  | [] => 0
  | n :: rest =>
      (if n.op = "placeholder" then 1 else 0) + countPlaceholders rest

/-- Walk the graph's nodes against the lifted-input list, one entry per
placeholder (`zip(placeholder_nodes, lifted_inputs)`): a placeholder with a
target becomes a `get_attr` node on the normalized target (the original
placeholder is erased and its uses redirected via the returned renaming), a
placeholder without one is retained and recorded in the retained-input map,
and non-placeholder nodes pass through. Returns (new node list, renaming of
replaced names, unlifted-attribute map, retained-input map). -/
def processPlaceholders :
    List FxNode → List (Option String) →
    List FxNode × List (String × String) × List (String × String) ×
      List (String × String)
  | [], _ => ([], [], [], [])
  | n :: rest, lifted =>
    if n.op = "placeholder" then
      match lifted with
      | [] =>
        let r := processPlaceholders rest []
        (n :: r.1, r.2.1, r.2.2.1, r.2.2.2)
      | some t :: lrest =>
        let tn := normTarget t
        let r := processPlaceholders rest lrest
        (⟨tn, "get_attr", tn, []⟩ :: r.1, (n.name, tn) :: r.2.1,
         (tn, tn) :: r.2.2.1, r.2.2.2)
      | none :: lrest =>
        let r := processPlaceholders rest lrest
        (n :: r.1, r.2.1, r.2.2.1, (n.name, n.name) :: r.2.2.2)
    else
      let r := processPlaceholders rest lifted
      (n :: r.1, r.2.1, r.2.2.1, r.2.2.2)

/-- `input_node.replace_all_uses_with(getattr_node)`: rewrite argument
references of every node through the renaming of the placeholder walk. -/
def renameArgs (rn : List (String × String)) (g : List FxNode) : List FxNode :=
  g.map (fun n =>
    { n with args := n.args.map (fun a => (assocGet? rn a).getD a) })

/-- Failures of the unlift rewriter: the placeholder-count assertion of
`_unlift_inputs_as_getattr`, the missing-output and output-count assertions
of `_insert_copy_for_mutations`, and its unresolved-mutation-target
`RuntimeError`. -/
inductive UnliftError where
  | signatureMismatch : UnliftError
  | noOutputNode : UnliftError
  | outputCountMismatch : UnliftError
  | unresolvedMutationTarget : String → UnliftError
deriving DecidableEq, Repr

/-- `_unlift_inputs_as_getattr` (lines 36-62): assert one lifted entry per
placeholder node, then unlift inputs referring to params/buffers/constants
as `get_attr` nodes. -/
def unliftInputsAsGetattr (g : List FxNode) (lifted : List (Option String)) :
    Except UnliftError
      (List FxNode × List (String × String) × List (String × String)) :=
  if lifted.length = countPlaceholders g then
    let r := processPlaceholders g lifted
    Except.ok (renameArgs r.2.1 r.1, r.2.2.1, r.2.2.2)
  else Except.error UnliftError.signatureMismatch

/-- Walk `zip(outputs, mutated_outputs)` (lines 84-103): a `None` entry keeps
the returned value as a user output; a named entry resolves its normalized
target in the unlifted-attribute map, then the retained-input map — failing
if found in neither — and yields an inplace `copy_` call node. Returns the
copy nodes and the user-output names. -/
def classifyMutations (um im : List (String × String)) :
    List (String × Option String) →
    Except UnliftError (List FxNode × List String)
  | [] => Except.ok ([], [])
  | (ret, none) :: rest =>
    match classifyMutations um im rest with
    | Except.error e => Except.error e
    | Except.ok r => Except.ok (r.1, ret :: r.2)
  | (ret, some t) :: rest =>
    let tn := normTarget t
    match assocGet? um tn with
    | some node =>
      match classifyMutations um im rest with
      | Except.error e => Except.error e
      | Except.ok r =>
          Except.ok
            (⟨"copy_" ++ ret, "call_function", "torch.ops.aten.copy_.default",
              [node, ret]⟩ :: r.1, r.2)
    | none =>
      match assocGet? im tn with
      | some node =>
        match classifyMutations um im rest with
        | Except.error e => Except.error e
        | Except.ok r =>
            Except.ok
              (⟨"copy_" ++ ret, "call_function", "torch.ops.aten.copy_.default",
                [node, ret]⟩ :: r.1, r.2)
      | none => Except.error (UnliftError.unresolvedMutationTarget tn)

def findOutputNode? : List FxNode → Option FxNode
  | [] => none
  | n :: rest => if n.op = "output" then some n else findOutputNode? rest

/-- `_insert_copy_for_mutations` (lines 65-109): find the output node, assert
one mutation entry per flattened output value, insert the `copy_` nodes
before the output, and rebuild an output node returning only user outputs. -/
def insertCopyForMutations (g : List FxNode)
    (mutatedOutputs : List (Option String))
    (um im : List (String × String)) : Except UnliftError (List FxNode) :=
  match findOutputNode? g with
  | none => Except.error UnliftError.noOutputNode
  | some outNode =>
    if mutatedOutputs.length = outNode.args.length then
      match classifyMutations um im (outNode.args.zip mutatedOutputs) with
      | Except.error e => Except.error e
      | Except.ok r =>
          Except.ok (g.flatMap (fun n =>
            if n.op = "output" then r.1 ++ [⟨n.name, "output", "", r.2⟩]
            else [n]))
    else Except.error UnliftError.outputCountMismatch

/-- `_unlift` (lines 141-175): unlift inputs as `get_attr` nodes, insert
copy-back nodes for mutations, and rebuild. The codegen rebuild from
`in_spec`/`out_spec`, `lint`, dead-code elimination and `recompile` act on
calling-convention metadata and well-formedness and are not modelled here;
no statement of `_unlift` (nor of `_unlift_exported_program_lifted_states`)
consults any lifted/unlifted marker. -/
def unlift (g : List FxNode) (lifted : List (Option String))
    (mutatedOutputs : List (Option String)) :
    Except UnliftError (List FxNode) :=
  match unliftInputsAsGetattr g lifted with
  | Except.error e => Except.error e
  | Except.ok r => insertCopyForMutations r.1 mutatedOutputs r.2.1 r.2.2

/-- A mutation target resolves via the unlifted-attribute map or the
retained-input map. -/
def resolvableTarget (um im : List (String × String)) (t : String) : Prop :=
  (assocGet? um (normTarget t)).isSome ∨ (assocGet? im (normTarget t)).isSome

instance (um im : List (String × String)) (t : String) :
    Decidable (resolvableTarget um im t) := by
  unfold resolvableTarget
  infer_instance

theorem mem_zip_snd {α β : Type} :
    ∀ (as : List α) (bs : List β) (p : α × β), p ∈ as.zip bs → p.2 ∈ bs := by
  intro as
  induction as with
  | nil => intro bs p h; simp [List.zip] at h
  | cons a arest ih =>
    intro bs p h
    cases bs with
    | nil => simp [List.zip] at h
    | cons b brest =>
      rcases List.mem_cons.mp h with h1 | h2
      · subst h1; exact List.mem_cons_self _ _
      · exact List.mem_cons_of_mem _ (ih brest p h2)

theorem mem_zip_of_mem_snd {α β : Type} :
    ∀ (as : List α) (bs : List β) (b : β), as.length = bs.length →
      b ∈ bs → ∃ a, (a, b) ∈ as.zip bs := by
  intro as
  induction as with
  | nil =>
    intro bs b hlen hb
    cases bs with
    | nil => simp at hb
    | cons x xs => simp at hlen
  | cons a arest ih =>
    intro bs b hlen hb
    cases bs with
    | nil => simp at hb
    | cons x xs =>
      rcases List.mem_cons.mp hb with h1 | h2
      · exact ⟨a, by simp [h1]⟩
      · obtain ⟨a', ha'⟩ := ih xs b (by simpa using hlen) h2
        exact ⟨a', List.mem_cons_of_mem _ ha'⟩

theorem classifyMutations_ok (um im : List (String × String)) :
    ∀ pairs : List (String × Option String),
      (∀ t, (∃ ret, (ret, some t) ∈ pairs) → resolvableTarget um im t) →
      ∃ r, classifyMutations um im pairs = Except.ok r := by
  intro pairs
  induction pairs with
  | nil => intro h; exact ⟨([], []), rfl⟩
  | cons p rest ih =>
    intro h
    obtain ⟨ret, mt⟩ := p
    have htail : ∀ t, (∃ r, (r, some t) ∈ rest) → resolvableTarget um im t :=
      fun t ⟨r, hr⟩ => h t ⟨r, List.mem_cons_of_mem _ hr⟩
    obtain ⟨r0, hr0⟩ := ih htail
    cases mt with
    | none => exact ⟨(r0.1, ret :: r0.2), by simp [classifyMutations, hr0]⟩
    | some t =>
      have hres : resolvableTarget um im t :=
        h t ⟨ret, List.mem_cons_self _ _⟩
      rcases hres with hu | hi
      · obtain ⟨node, hn⟩ := Option.isSome_iff_exists.mp hu
        refine ⟨(⟨"copy_" ++ ret, "call_function",
          "torch.ops.aten.copy_.default", [node, ret]⟩ :: r0.1, r0.2), ?_⟩
        simp [classifyMutations, hn, hr0]
      · cases hum : assocGet? um (normTarget t) with
        | some node =>
          refine ⟨(⟨"copy_" ++ ret, "call_function",
            "torch.ops.aten.copy_.default", [node, ret]⟩ :: r0.1, r0.2), ?_⟩
          simp [classifyMutations, hum, hr0]
        | none =>
          obtain ⟨node, hn⟩ := Option.isSome_iff_exists.mp hi
          refine ⟨(⟨"copy_" ++ ret, "call_function",
            "torch.ops.aten.copy_.default", [node, ret]⟩ :: r0.1, r0.2), ?_⟩
          simp [classifyMutations, hum, hn, hr0]

theorem classifyMutations_err (um im : List (String × String)) :
    ∀ pairs : List (String × Option String),
      (∃ ret t, (ret, some t) ∈ pairs ∧ ¬ resolvableTarget um im t) →
      ∃ tn, classifyMutations um im pairs =
        Except.error (UnliftError.unresolvedMutationTarget tn) := by
  intro pairs
  induction pairs with
  | nil => rintro ⟨ret, t, hmem, _⟩; simp at hmem
  | cons p rest ih =>
    rintro ⟨ret, t, hmem, hnr⟩
    obtain ⟨ret0, mt0⟩ := p
    cases mt0 with
    | none =>
      have hrest : (ret, some t) ∈ rest := by
        rcases List.mem_cons.mp hmem with h1 | h2
        · exact absurd h1 (by simp)
        · exact h2
      obtain ⟨tn, htn⟩ := ih ⟨ret, t, hrest, hnr⟩
      exact ⟨tn, by simp [classifyMutations, htn]⟩
    | some t0 =>
      by_cases hres : resolvableTarget um im t0
      · have hrest : (ret, some t) ∈ rest := by
          rcases List.mem_cons.mp hmem with h1 | h2
          · exfalso
            have : ret = ret0 ∧ t = t0 := by
              constructor <;> [exact congrArg Prod.fst h1;
                exact Option.some.inj (congrArg Prod.snd h1)]
            exact hnr (this.2 ▸ hres)
          · exact h2
        obtain ⟨tn, htn⟩ := ih ⟨ret, t, hrest, hnr⟩
        rcases hres with hu | hi
        · obtain ⟨node, hn⟩ := Option.isSome_iff_exists.mp hu
          exact ⟨tn, by simp [classifyMutations, hn, htn]⟩
        · cases hum : assocGet? um (normTarget t0) with
          | some node => exact ⟨tn, by simp [classifyMutations, hum, htn]⟩
          | none =>
            obtain ⟨node, hn⟩ := Option.isSome_iff_exists.mp hi
            exact ⟨tn, by simp [classifyMutations, hum, hn, htn]⟩
      · have hu : assocGet? um (normTarget t0) = none := by
          cases h : assocGet? um (normTarget t0) with
          | none => rfl
          | some node => exact absurd (Or.inl (by simp [h])) hres
        have hi : assocGet? im (normTarget t0) = none := by
          cases h : assocGet? im (normTarget t0) with
          | none => rfl
          | some node => exact absurd (Or.inr (by simp [h])) hres
        exact ⟨normTarget t0, by simp [classifyMutations, hu, hi]⟩

/-- C5: the unlift rewriter fails with the signature-count assertion before
any rewriting whenever the number of input specs (lifted entries) differs
from the number of placeholder nodes; after the input rewrite, given the
graph's output node and matching output arity, it fails with an
unresolved-mutation-target error whenever some mutation output names a
target found in neither the unlifted-attribute map nor the retained-input
map, and succeeds — in particular failing on neither of these grounds —
whenever every mutation target resolves. -/
theorem unlift_invariant_checks (g : List FxNode)
    (lifted mutatedOutputs : List (Option String)) :
    (lifted.length ≠ countPlaceholders g →
       unlift g lifted mutatedOutputs =
         Except.error UnliftError.signatureMismatch) ∧
    (∀ g1 um im, unliftInputsAsGetattr g lifted = Except.ok (g1, um, im) →
      ∀ outNode, findOutputNode? g1 = some outNode →
        mutatedOutputs.length = outNode.args.length →
        ((∃ t, some t ∈ mutatedOutputs ∧ ¬ resolvableTarget um im t) →
           ∃ tn, unlift g lifted mutatedOutputs =
             Except.error (UnliftError.unresolvedMutationTarget tn)) ∧
        ((∀ t, some t ∈ mutatedOutputs → resolvableTarget um im t) →
           ∃ g2, unlift g lifted mutatedOutputs = Except.ok g2)) := by
  constructor
  · intro hlen
    simp [unlift, unliftInputsAsGetattr, hlen]
  · intro g1 um im hok outNode hout hcount
    have hun : unlift g lifted mutatedOutputs =
        insertCopyForMutations g1 mutatedOutputs um im := by
      simp [unlift, hok]
    constructor
    · rintro ⟨t, htmem, hnr⟩
      obtain ⟨ret, hpair⟩ := mem_zip_of_mem_snd outNode.args mutatedOutputs
        (some t) hcount.symm htmem
      obtain ⟨tn, htn⟩ := classifyMutations_err um im
        (outNode.args.zip mutatedOutputs) ⟨ret, t, hpair, hnr⟩
      refine ⟨tn, ?_⟩
      rw [hun]
      simp [insertCopyForMutations, hout, hcount, htn]
    · intro hres
      obtain ⟨r, hr⟩ := classifyMutations_ok um im
        (outNode.args.zip mutatedOutputs)
        (fun t ⟨ret, hpair⟩ =>
          hres t (mem_zip_snd outNode.args mutatedOutputs (ret, some t) hpair))
      refine ⟨g1.flatMap (fun n =>
        if n.op = "output" then r.1 ++ [⟨n.name, "output", "", r.2⟩]
        else [n]), ?_⟩
      rw [hun]
      simp [insertCopyForMutations, hout, hcount, hr]

/-- Concrete graph for instantiating C5: a lifted buffer, a user input, and
an output returning (buffer mutation value, user output). -/
def mutationGraphEx : List FxNode :=
  [⟨"b", "placeholder", "", []⟩,
   ⟨"x", "placeholder", "", []⟩,
   ⟨"add", "call_function", "torch.ops.aten.add.Tensor", ["b", "x"]⟩,
   ⟨"out", "output", "", ["add", "add"]⟩]

/-- Witness for C5: a short lifted list fails the signature assertion, a
dangling mutation target fails with the unresolved-target error, and the
well-formed instance succeeds. -/
theorem unlift_invariant_checks_witness :
    unlift mutationGraphEx [some "buf"] [some "buf", none] =
      Except.error UnliftError.signatureMismatch ∧
    (∃ tn, unlift mutationGraphEx [some "buf", none] [some "nope", none] =
      Except.error (UnliftError.unresolvedMutationTarget tn)) ∧
    (∃ g2, unlift mutationGraphEx [some "buf", none] [some "buf", none] =
      Except.ok g2) := by
  refine ⟨?_, ?_, ?_⟩
  · exact (unlift_invariant_checks mutationGraphEx [some "buf"]
      [some "buf", none]).1 (by decide)
  · exact (unlift_invariant_checks mutationGraphEx [some "buf", none]
      [some "nope", none]).2
      [⟨"buf", "get_attr", "buf", []⟩, ⟨"x", "placeholder", "", []⟩,
       ⟨"add", "call_function", "torch.ops.aten.add.Tensor", ["buf", "x"]⟩,
       ⟨"out", "output", "", ["add", "add"]⟩]
      [("buf", "buf")] [("x", "x")] rfl
      ⟨"out", "output", "", ["add", "add"]⟩ rfl rfl
      |>.1 ⟨"nope", by simp, by decide⟩
  · exact (unlift_invariant_checks mutationGraphEx [some "buf", none]
      [some "buf", none]).2
      [⟨"buf", "get_attr", "buf", []⟩, ⟨"x", "placeholder", "", []⟩,
       ⟨"add", "call_function", "torch.ops.aten.add.Tensor", ["buf", "x"]⟩,
       ⟨"out", "output", "", ["add", "add"]⟩]
      [("buf", "buf")] [("x", "x")] rfl
      ⟨"out", "output", "", ["add", "add"]⟩ rfl rfl
      |>.2 (by intro t ht; simp at ht; subst ht; decide)

/-- A lifted graph: a lifted parameter placeholder, a user input, an add,
and an output returning the sum. -/
def liftedGraphEx : List FxNode :=
  [⟨"arg0", "placeholder", "", []⟩,
   ⟨"arg1", "placeholder", "", []⟩,
   ⟨"add", "call_function", "torch.ops.aten.add.Tensor", ["arg0", "arg1"]⟩,
   ⟨"out", "output", "", ["add"]⟩]

/-- The result of unlifting `liftedGraphEx` with its first input lifted to
parameter "linear.weight": a graph in the UNLIFTED state, with the state
graph-resident as a `get_attr` node. -/
def unliftedGraphEx : List FxNode :=
  [⟨"linear_weight", "get_attr", "linear_weight", []⟩,
   ⟨"arg1", "placeholder", "", []⟩,
   ⟨"add", "call_function", "torch.ops.aten.add.Tensor",
    ["linear_weight", "arg1"]⟩,
   ⟨"out", "output", "", ["add"]⟩]

/-- A graph is in the UNLIFTED form when state is graph-resident as an
attribute-reference node. -/
def hasGetAttrNode (g : List FxNode) : Bool :=
  g.any (fun n => n.op == "get_attr")

/-- C3 counterexample: the unlift rewrite turns the example lifted graph into
a graph in the UNLIFTED state, and applying the rewrite to that
already-unlifted graph again — without re-lifting — is not rejected: no
marker is checked anywhere and the rewrite returns successfully, refuting
"the rewriter checks a marker before performing any rewriting and fails if
the graph is already in the UNLIFTED state". -/
theorem unlift_no_marker_check :
    unlift liftedGraphEx [some "linear.weight", none] [none] =
      Except.ok unliftedGraphEx ∧
    hasGetAttrNode unliftedGraphEx = true ∧
    unlift unliftedGraphEx [none] [none] = Except.ok unliftedGraphEx :=
  ⟨rfl, rfl, rfl⟩

theorem processPlaceholders_allNone (g : List FxNode) :
    ∀ lifted : List (Option String), (∀ o ∈ lifted, o = none) →
    (processPlaceholders g lifted).1 = g ∧
    (processPlaceholders g lifted).2.1 = [] ∧
    (processPlaceholders g lifted).2.2.1 = [] := by
  induction g with
  | nil => intro lifted h; exact ⟨rfl, rfl, rfl⟩
  | cons n rest ih =>
    intro lifted h
    by_cases hop : n.op = "placeholder"
    · cases lifted with
      | nil =>
        have := ih [] (by simp)
        simp [processPlaceholders, hop, this.1, this.2.1, this.2.2]
      | cons o lrest =>
        have ho : o = none := h o (List.mem_cons_self _ _)
        subst ho
        have := ih lrest (fun o ho => h o (List.mem_cons_of_mem _ ho))
        simp [processPlaceholders, hop, this.1, this.2.1, this.2.2]
    · have := ih lifted h
      simp [processPlaceholders, hop, this.1, this.2.1, this.2.2]

theorem renameArgs_nil (g : List FxNode) : renameArgs [] g = g := by
  unfold renameArgs
  have h : ∀ n : FxNode,
      (fun n => ({ n with
        args := n.args.map (fun a =>
          (assocGet? ([] : List (String × String)) a).getD a) } : FxNode)) n
        = n := by
    intro n
    simp [assocGet?]
  simpa using List.map_congr_left (fun n _ => h n) |>.trans (List.map_id g)

theorem unliftInputsAsGetattr_allNone (g : List FxNode)
    (lifted : List (Option String)) (hnone : ∀ o ∈ lifted, o = none)
    (hlen : lifted.length = countPlaceholders g) :
    unliftInputsAsGetattr g lifted =
      Except.ok (g, [], (processPlaceholders g lifted).2.2.2) := by
  have hp := processPlaceholders_allNone g lifted hnone
  simp [unliftInputsAsGetattr, hlen, hp.1, hp.2.1, hp.2.2, renameArgs_nil]

/-- C3 as amended: `_unlift` checks no marker and does not reject an
already-unlifted graph. Re-applying the rewrite to any graph with an output
node — in particular one already in the UNLIFTED state, whose remaining
placeholders are all plain user inputs — succeeds when given the all-`None`
lifted-input and mutation lists of a fully unlifted program; the only
fail-fast checks of the rewriter are the count assertions and the
unresolved-mutation-target lookup, none of which consult a lifted/unlifted
marker. -/
theorem unlift_reapply_no_marker (g : List FxNode) (outNode : FxNode)
    (hout : findOutputNode? g = some outNode) :
    ∃ g2, unlift g (List.replicate (countPlaceholders g) none)
        (List.replicate outNode.args.length none) = Except.ok g2 := by
  have hnone : ∀ o ∈ List.replicate (countPlaceholders g) (none : Option String),
      o = none := fun o ho => List.eq_of_mem_replicate ho
  have hok := unliftInputsAsGetattr_allNone g
    (List.replicate (countPlaceholders g) none) hnone (List.length_replicate _ _)
  have hres : ∀ t, some t ∈ List.replicate outNode.args.length
      (none : Option String) → resolvableTarget [] [] t := by
    intro t ht
    exact absurd (List.eq_of_mem_replicate ht) (by simp)
  obtain ⟨r, hr⟩ := classifyMutations_ok []
    (processPlaceholders g (List.replicate (countPlaceholders g) none)).2.2.2
    (outNode.args.zip (List.replicate outNode.args.length none))
    (fun t ⟨ret, hpair⟩ => by
      have := mem_zip_snd outNode.args _ (ret, some t) hpair
      exact absurd (List.eq_of_mem_replicate this) (by simp))
  refine ⟨g.flatMap (fun n =>
    if n.op = "output" then r.1 ++ [⟨n.name, "output", "", r.2⟩] else [n]), ?_⟩
  simp only [unlift, hok]
  simp [insertCopyForMutations, hout, List.length_replicate, hr]

/-- Witness for the amended C3: re-applying the rewrite to the concrete
already-unlifted graph succeeds. -/
theorem unlift_reapply_no_marker_witness :
    ∃ g2, unlift unliftedGraphEx
        (List.replicate (countPlaceholders unliftedGraphEx) none)
        (List.replicate (["add"] : List String).length none) =
      Except.ok g2 :=
  unlift_reapply_no_marker unliftedGraphEx ⟨"out", "output", "", ["add"]⟩ rfl

/-! ## Runtime input validation (`torch/export/_unlift.py`,
`_check_input_constraints_pre_hook` and `_create_stateful_graph_module`) -/

/-- A pytree of values: leaves, plus cons-encoded sequence containers and
cons-encoded keyed mapping containers (tuples/lists and dicts). -/
inductive PyTree (α : Type) where
  | leaf (a : α)
  | nilSeq
  | consSeq (head tail : PyTree α)
  | nilMap
  | consMap (key : String) (head tail : PyTree α)
deriving DecidableEq, Repr

/-- A pytree structure descriptor (`TreeSpec`): a tree with leaves erased. -/
inductive TreeSpec where
  | leaf
  | nilSeq
  | consSeq (head tail : TreeSpec)
  | nilMap
  | consMap (key : String) (head tail : TreeSpec)
deriving DecidableEq, Repr

/-- `pytree.tree_flatten`: leaves in left-to-right order, plus the observed
structure. -/
def treeFlatten {α : Type} : PyTree α → List α × TreeSpec
  | PyTree.leaf a => ([a], TreeSpec.leaf)
  | PyTree.nilSeq => ([], TreeSpec.nilSeq)
  | PyTree.consSeq h t =>
      let a := treeFlatten h
      let b := treeFlatten t
      (a.1 ++ b.1, TreeSpec.consSeq a.2 b.2)
  | PyTree.nilMap => ([], TreeSpec.nilMap)
  | PyTree.consMap k h t =>
      let a := treeFlatten h
      let b := treeFlatten t
      (a.1 ++ b.1, TreeSpec.consMap k a.2 b.2)

/-- A placeholder node as consumed by the runtime check: its name and its
per-dimension symbolic/static markers. -/
structure PlaceholderInfo where
  name : String
  dims : List DimVal
deriving DecidableEq, Repr

/-- Runtime validation failures of an unlifted module call: the structure
mismatch raised by the pre-hook, and a dimension falling outside its frozen
range. -/
inductive HookError where
  | inputSpecMismatch (expected observed : TreeSpec)
  | rangeViolation (input_name : String) (dim : Nat) (size : Nat) (lo hi : Int)
deriving DecidableEq, Repr

/-- Check one input's dimensions (index, marker, concrete size) against the
frozen ranges: a symbolic dimension whose concrete size falls outside its
range fails, naming the input, the dimension and the violated bounds. -/
def checkTensorDims (ranges : List (String × SymRange)) (nm : String) :
    List ((Nat × DimVal) × Nat) → Except HookError Unit
  | [] => Except.ok ()
  | ((i, DimVal.sym s), sz) :: rest =>
    match assocGet? ranges s with
    | some r =>
        if (sz : Int) < r.lo ∨ r.hi < (sz : Int) then
          Except.error (HookError.rangeViolation nm i sz r.lo r.hi)
        else checkTensorDims ranges nm rest
    | none => checkTensorDims ranges nm rest
  | ((_, DimVal.static _), _) :: rest => checkTensorDims ranges nm rest

def checkGraphInputs (ranges : List (String × SymRange)) :
    List (PlaceholderInfo × List Nat) → Except HookError Unit
  | [] => Except.ok ()
  | (ph, shape) :: rest =>
    match checkTensorDims ranges ph.name ((idxFrom 0 ph.dims).zip shape) with
    | Except.error e => Except.error e
    | Except.ok _ => checkGraphInputs ranges rest

/-- Modelled from the spec: `_check_input_constraints_for_graph` is imported
from `torch._export.utils`, which is not among the sources. The spec says the
hook "checks every input's concrete dimensions against the frozen range
constraints, failing with `RangeViolation` naming the offending dimension and
bound": each placeholder is paired with the corresponding flattened argument
and its symbolic dimensions are checked against the frozen ranges. -/
def checkInputConstraintsForGraph (phs : List PlaceholderInfo)
    (flatArgs : List (List Nat)) (ranges : List (String × SymRange)) :
    Except HookError Unit :=
  checkGraphInputs ranges (phs.zip flatArgs)

/-- `_check_input_constraints_pre_hook` (lines 17-33): re-flatten the actual
call-time arguments, fail if the observed tree spec differs from the stored
`in_spec`, otherwise run the per-dimension range checks over the graph's
placeholder nodes. -/
def checkInputConstraintsPreHook (inSpec : TreeSpec)
    (phs : List PlaceholderInfo) (ranges : List (String × SymRange))
    (callArgs : PyTree (List Nat)) : Except HookError Unit :=
  let fl := treeFlatten callArgs
  if fl.2 ≠ inSpec then
    Except.error (HookError.inputSpecMismatch inSpec fl.2)
  else checkInputConstraintsForGraph phs fl.1 ranges

/-- Invocation of a module produced by `_create_stateful_graph_module`
(lines 218-230): the registered forward pre-hook runs first; only if it
passes does the graph body (`exec`) run on the flattened arguments. -/
def invokeStatefulModule (exec : List (List Nat) → List (List Nat))
    (inSpec : TreeSpec) (phs : List PlaceholderInfo)
    (ranges : List (String × SymRange)) (callArgs : PyTree (List Nat)) :
    Except HookError (List (List Nat)) :=
  match checkInputConstraintsPreHook inSpec phs ranges callArgs with
  | Except.error e => Except.error e
  | Except.ok _ => Except.ok (exec (treeFlatten callArgs).1)

/-- The (input name, dimension index, concrete size, frozen range) tuples
the runtime check inspects. -/
def dimEntries (ranges : List (String × SymRange)) (nm : String)
    (l : List ((Nat × DimVal) × Nat)) : List (String × Nat × Nat × SymRange) :=
  l.filterMap (fun p =>
    match p.1.2 with
    | DimVal.sym s => (assocGet? ranges s).map (fun r => (nm, p.1.1, p.2, r))
    | DimVal.static _ => none)

def checkedEntries (phs : List PlaceholderInfo) (flatArgs : List (List Nat))
    (ranges : List (String × SymRange)) : List (String × Nat × Nat × SymRange) :=
  (phs.zip flatArgs).flatMap (fun pa =>
    dimEntries ranges pa.1.name ((idxFrom 0 pa.1.dims).zip pa.2))

def entryInRange (e : String × Nat × Nat × SymRange) : Prop :=
  e.2.2.2.lo ≤ (e.2.2.1 : Int) ∧ (e.2.2.1 : Int) ≤ e.2.2.2.hi

instance (e : String × Nat × Nat × SymRange) : Decidable (entryInRange e) := by
  unfold entryInRange
  infer_instance

theorem dimEntries_cons_static (ranges : List (String × SymRange))
    (nm : String) (i k sz : Nat) (rest : List ((Nat × DimVal) × Nat)) :
    dimEntries ranges nm (((i, DimVal.static k), sz) :: rest) =
      dimEntries ranges nm rest := by
  simp [dimEntries]

theorem dimEntries_cons_sym_none (ranges : List (String × SymRange))
    (nm s : String) (i sz : Nat) (rest : List ((Nat × DimVal) × Nat))
    (hr : assocGet? ranges s = none) :
    dimEntries ranges nm (((i, DimVal.sym s), sz) :: rest) =
      dimEntries ranges nm rest := by
  simp [dimEntries, hr]

theorem dimEntries_cons_sym_some (ranges : List (String × SymRange))
    (nm s : String) (i sz : Nat) (r : SymRange)
    (rest : List ((Nat × DimVal) × Nat))
    (hr : assocGet? ranges s = some r) :
    dimEntries ranges nm (((i, DimVal.sym s), sz) :: rest) =
      (nm, i, sz, r) :: dimEntries ranges nm rest := by
  simp [dimEntries, hr]

theorem entryInRange_iff (nm : String) (i sz : Nat) (r : SymRange) :
    entryInRange (nm, i, sz, r) ↔ (r.lo ≤ (sz : Int) ∧ (sz : Int) ≤ r.hi) :=
  Iff.rfl

theorem checkTensorDims_ok (ranges : List (String × SymRange)) (nm : String) :
    ∀ l : List ((Nat × DimVal) × Nat),
      (∀ e ∈ dimEntries ranges nm l, entryInRange e) →
      checkTensorDims ranges nm l = Except.ok () := by
  intro l
  induction l with
  | nil => intro h; rfl
  | cons p rest ih =>
    intro h
    obtain ⟨⟨i, d⟩, sz⟩ := p
    cases d with
    | static k =>
      rw [dimEntries_cons_static] at h
      simpa [checkTensorDims] using ih h
    | sym s =>
      cases hr : assocGet? ranges s with
      | none =>
        rw [dimEntries_cons_sym_none ranges nm s i sz rest hr] at h
        simpa [checkTensorDims, hr] using ih h
      | some r =>
        rw [dimEntries_cons_sym_some ranges nm s i sz r rest hr] at h
        have hhead : r.lo ≤ (sz : Int) ∧ (sz : Int) ≤ r.hi :=
          (entryInRange_iff nm i sz r).mp (h _ (List.mem_cons_self _ _))
        have hout : ¬ ((sz : Int) < r.lo ∨ r.hi < (sz : Int)) := by omega
        have htail := ih (fun e he => h e (List.mem_cons_of_mem _ he))
        simpa [checkTensorDims, hr, hout] using htail

theorem checkTensorDims_err (ranges : List (String × SymRange)) (nm : String) :
    ∀ l : List ((Nat × DimVal) × Nat),
      (∃ e ∈ dimEntries ranges nm l, ¬ entryInRange e) →
      ∃ i sz r, (nm, i, sz, r) ∈ dimEntries ranges nm l ∧
        ¬ entryInRange (nm, i, sz, r) ∧
        checkTensorDims ranges nm l =
          Except.error (HookError.rangeViolation nm i sz r.lo r.hi) := by
  intro l
  induction l with
  | nil => rintro ⟨e, he, _⟩; simp [dimEntries] at he
  | cons p rest ih =>
    rintro ⟨e, he, hbad⟩
    obtain ⟨⟨i, d⟩, sz⟩ := p
    cases d with
    | static k =>
      rw [dimEntries_cons_static] at he
      obtain ⟨i', sz', r', h1, h2, h3⟩ := ih ⟨e, he, hbad⟩
      refine ⟨i', sz', r', ?_, h2, by simpa [checkTensorDims] using h3⟩
      rw [dimEntries_cons_static]
      exact h1
    | sym s =>
      cases hr : assocGet? ranges s with
      | none =>
        rw [dimEntries_cons_sym_none ranges nm s i sz rest hr] at he
        obtain ⟨i', sz', r', h1, h2, h3⟩ := ih ⟨e, he, hbad⟩
        refine ⟨i', sz', r', ?_, h2, by simpa [checkTensorDims, hr] using h3⟩
        rw [dimEntries_cons_sym_none ranges nm s i sz rest hr]
        exact h1
      | some r =>
        rw [dimEntries_cons_sym_some ranges nm s i sz r rest hr] at he
        by_cases hout : ((sz : Int) < r.lo ∨ r.hi < (sz : Int))
        · refine ⟨i, sz, r, ?_, ?_, by simp [checkTensorDims, hr, hout]⟩
          · rw [dimEntries_cons_sym_some ranges nm s i sz r rest hr]
            exact List.mem_cons_self _ _
          · rw [entryInRange_iff]
            omega
        · have hheadIn : entryInRange (nm, i, sz, r) := by
            rw [entryInRange_iff]
            omega
          have he' : e ∈ dimEntries ranges nm rest := by
            rcases List.mem_cons.mp he with h1 | h2
            · exact absurd (h1 ▸ hheadIn) hbad
            · exact h2
          obtain ⟨i', sz', r', h1, h2, h3⟩ := ih ⟨e, he', hbad⟩
          refine ⟨i', sz', r', ?_, h2,
            by simpa [checkTensorDims, hr, hout] using h3⟩
          rw [dimEntries_cons_sym_some ranges nm s i sz r rest hr]
          exact List.mem_cons_of_mem _ h1

theorem checkGraphInputs_ok (ranges : List (String × SymRange)) :
    ∀ l : List (PlaceholderInfo × List Nat),
      (∀ e ∈ l.flatMap (fun pa =>
          dimEntries ranges pa.1.name ((idxFrom 0 pa.1.dims).zip pa.2)),
        entryInRange e) →
      checkGraphInputs ranges l = Except.ok () := by
  intro l
  induction l with
  | nil => intro h; rfl
  | cons pa rest ih =>
    intro h
    obtain ⟨ph, shape⟩ := pa
    rw [List.flatMap_cons] at h
    have hhead := checkTensorDims_ok ranges ph.name
      ((idxFrom 0 ph.dims).zip shape)
      (fun e he => h e (List.mem_append_left _ he))
    have htail := ih (fun e he => h e (List.mem_append_right _ he))
    simpa [checkGraphInputs, hhead] using htail

theorem checkGraphInputs_err (ranges : List (String × SymRange)) :
    ∀ l : List (PlaceholderInfo × List Nat),
      (∃ e ∈ l.flatMap (fun pa =>
          dimEntries ranges pa.1.name ((idxFrom 0 pa.1.dims).zip pa.2)),
        ¬ entryInRange e) →
      ∃ nm i sz r,
        (nm, i, sz, r) ∈ l.flatMap (fun pa =>
          dimEntries ranges pa.1.name ((idxFrom 0 pa.1.dims).zip pa.2)) ∧
        ¬ entryInRange (nm, i, sz, r) ∧
        checkGraphInputs ranges l =
          Except.error (HookError.rangeViolation nm i sz r.lo r.hi) := by
  intro l
  induction l with
  | nil => rintro ⟨e, he, _⟩; simp at he
  | cons pa rest ih =>
    rintro ⟨e, he, hbad⟩
    obtain ⟨ph, shape⟩ := pa
    rw [List.flatMap_cons] at he
    by_cases hh : ∃ e0 ∈ dimEntries ranges ph.name
        ((idxFrom 0 ph.dims).zip shape), ¬ entryInRange e0
    · obtain ⟨i, sz, r, h1, h2, h3⟩ :=
        checkTensorDims_err ranges ph.name ((idxFrom 0 ph.dims).zip shape) hh
      refine ⟨ph.name, i, sz, r, ?_, h2, ?_⟩
      · rw [List.flatMap_cons]
        exact List.mem_append_left _ h1
      · simp [checkGraphInputs, h3]
    · push_neg at hh
      have hhead := checkTensorDims_ok ranges ph.name
        ((idxFrom 0 ph.dims).zip shape) hh
      have he' : e ∈ rest.flatMap (fun pa =>
          dimEntries ranges pa.1.name ((idxFrom 0 pa.1.dims).zip pa.2)) := by
        rcases List.mem_append.mp he with h1 | h2
        · exact absurd (hh e h1) (by exact fun h => hbad h)
        · exact h2
      obtain ⟨nm, i, sz, r, h1, h2, h3⟩ := ih ⟨e, he', hbad⟩
      refine ⟨nm, i, sz, r, ?_, h2, ?_⟩
      · rw [List.flatMap_cons]
        exact List.mem_append_right _ h1
      · simpa [checkGraphInputs, hhead] using h3

/-- C4: invoking a module produced by unlift first re-flattens the actual
call-time arguments; when the observed tree structure differs from the
recorded `in_spec` the call fails with the structure mismatch before any
graph node is executed (the result does not depend on the graph body);
otherwise every input's concrete dimensions are checked against the frozen
range constraints: the body runs exactly when all checked dimensions lie in
range, and a dimension outside its range fails the call with a
range-violation error naming the offending input, dimension and bounds. -/
theorem pre_call_validation (exec exec2 : List (List Nat) → List (List Nat))
    (inSpec : TreeSpec) (phs : List PlaceholderInfo)
    (ranges : List (String × SymRange)) (callArgs : PyTree (List Nat)) :
    ((treeFlatten callArgs).2 ≠ inSpec →
       invokeStatefulModule exec inSpec phs ranges callArgs =
         Except.error
           (HookError.inputSpecMismatch inSpec (treeFlatten callArgs).2) ∧
       invokeStatefulModule exec inSpec phs ranges callArgs =
         invokeStatefulModule exec2 inSpec phs ranges callArgs) ∧
    ((treeFlatten callArgs).2 = inSpec →
       ((∀ e ∈ checkedEntries phs (treeFlatten callArgs).1 ranges,
           entryInRange e) →
          invokeStatefulModule exec inSpec phs ranges callArgs =
            Except.ok (exec (treeFlatten callArgs).1)) ∧
       ((∃ e ∈ checkedEntries phs (treeFlatten callArgs).1 ranges,
           ¬ entryInRange e) →
          ∃ nm i sz r,
            (nm, i, sz, r) ∈ checkedEntries phs (treeFlatten callArgs).1 ranges ∧
            ¬ entryInRange (nm, i, sz, r) ∧
            invokeStatefulModule exec inSpec phs ranges callArgs =
              Except.error (HookError.rangeViolation nm i sz r.lo r.hi))) := by
  constructor
  · intro hne
    constructor <;>
      simp [invokeStatefulModule, checkInputConstraintsPreHook, hne]
  · intro heq
    constructor
    · intro hall
      have hok := checkGraphInputs_ok ranges (phs.zip (treeFlatten callArgs).1)
        hall
      simp [invokeStatefulModule, checkInputConstraintsPreHook, heq,
        checkInputConstraintsForGraph, hok]
    · intro hex
      obtain ⟨nm, i, sz, r, h1, h2, h3⟩ :=
        checkGraphInputs_err ranges (phs.zip (treeFlatten callArgs).1) hex
      refine ⟨nm, i, sz, r, h1, h2, ?_⟩
      simp [invokeStatefulModule, checkInputConstraintsPreHook, heq,
        checkInputConstraintsForGraph, h3]

/-- Witness for C4 on a one-tensor module with dynamic dimension 0 frozen to
range 1..3: a call with mismatched structure fails with the spec mismatch
without running the body, an in-range call runs the body, and an
out-of-range call fails naming input "x", dimension 0 and bounds 1..3. -/
theorem pre_call_validation_witness :
    invokeStatefulModule (fun l => l)
        (TreeSpec.consSeq TreeSpec.leaf TreeSpec.nilSeq)
        [⟨"x", [DimVal.sym "s0", DimVal.static 4]⟩] [("s0", ⟨1, 3⟩)]
        (PyTree.leaf [2, 4]) =
      Except.error (HookError.inputSpecMismatch
        (TreeSpec.consSeq TreeSpec.leaf TreeSpec.nilSeq) TreeSpec.leaf) ∧
    invokeStatefulModule (fun l => l)
        (TreeSpec.consSeq TreeSpec.leaf TreeSpec.nilSeq)
        [⟨"x", [DimVal.sym "s0", DimVal.static 4]⟩] [("s0", ⟨1, 3⟩)]
        (PyTree.consSeq (PyTree.leaf [2, 4]) PyTree.nilSeq) =
      Except.ok [[2, 4]] ∧
    (∃ nm i sz r,
      (nm, i, sz, r) ∈ checkedEntries
        [⟨"x", [DimVal.sym "s0", DimVal.static 4]⟩]
        (treeFlatten (PyTree.consSeq (PyTree.leaf [5, 4]) PyTree.nilSeq)).1
        [("s0", ⟨1, 3⟩)] ∧
      ¬ entryInRange (nm, i, sz, r) ∧
      invokeStatefulModule (fun l => l)
          (TreeSpec.consSeq TreeSpec.leaf TreeSpec.nilSeq)
          [⟨"x", [DimVal.sym "s0", DimVal.static 4]⟩] [("s0", ⟨1, 3⟩)]
          (PyTree.consSeq (PyTree.leaf [5, 4]) PyTree.nilSeq) =
        Except.error (HookError.rangeViolation nm i sz r.lo r.hi)) := by
  refine ⟨?_, ?_, ?_⟩
  · exact (pre_call_validation (fun l => l) (fun l => l)
      (TreeSpec.consSeq TreeSpec.leaf TreeSpec.nilSeq)
      [⟨"x", [DimVal.sym "s0", DimVal.static 4]⟩] [("s0", ⟨1, 3⟩)]
      (PyTree.leaf [2, 4])).1 (by decide) |>.1
  · exact (pre_call_validation (fun l => l) (fun l => l)
      (TreeSpec.consSeq TreeSpec.leaf TreeSpec.nilSeq)
      [⟨"x", [DimVal.sym "s0", DimVal.static 4]⟩] [("s0", ⟨1, 3⟩)]
      (PyTree.consSeq (PyTree.leaf [2, 4]) PyTree.nilSeq)).2 (by decide)
      |>.1 (by decide)
  · exact (pre_call_validation (fun l => l)
      (fun l => l) (TreeSpec.consSeq TreeSpec.leaf TreeSpec.nilSeq)
      [⟨"x", [DimVal.sym "s0", DimVal.static 4]⟩] [("s0", ⟨1, 3⟩)]
      (PyTree.consSeq (PyTree.leaf [5, 4]) PyTree.nilSeq)).2 (by decide)
      |>.2 ⟨("x", 0, 5, ⟨1, 3⟩), by decide, by decide⟩

/-! ## Fakification (`torch/_export/non_strict_utils.py`, `fakify` and
`make_fake_inputs`) -/

/-- One entry of a pytree key path (`SequenceKey`, `MappingKey`,
`GetAttrKey`). -/
inductive KeyEntry where
  | seq (idx : Nat)
  | mapKey (key : String)
  | getAttrKey (attr : String)
deriving DecidableEq, Repr

/-- A dynamo source: the provenance path of a value (`LocalSource`,
`GetItemSource` with an index or a key, `AttrSource`, and
`TensorPropertySource` for the SIZE property at a dimension). -/
inductive Source where
  | localSource (name : String)
  | getItemIdx (base : Source) (idx : Nat)
  | getItemKey (base : Source) (key : String)
  | attrSource (base : Source) (attr : String)
  | tensorSizeSource (base : Source) (idx : Nat)
deriving DecidableEq, Repr

/-- `key_path_to_source` (lines 35-50): fold the key path onto
`LocalSource("args")`. -/
def key_path_to_source (kp : List KeyEntry) : Source :=
  kp.foldl
    (fun src k =>
      match k with
      | KeyEntry.seq i => Source.getItemIdx src i
      | KeyEntry.mapKey key => Source.getItemKey src key
      | KeyEntry.getAttrKey a => Source.attrSource src a)
    (Source.localSource "args")

/-- The target of a `shared` declaration: another tensor's dimension. -/
structure SharedDim where
  t_id : Nat
  dim : Nat
deriving DecidableEq, Repr

/-- A user-declared constraint: dimension `dim` of the tensor with identity
`t_id` is dynamic with range `constraint_range`, optionally shared with
another tensor's dimension, carrying a user-facing debug name. -/
structure Constraint where
  t_id : Nat
  dim : Nat
  constraint_range : SymRange
  shared : Option SharedDim
  debug_name : String
deriving DecidableEq, Repr

/-- A runtime tensor leaf: its Python identity `id(t)` and its shape. -/
structure PyTensor where
  tid : Nat
  shape : List Nat
deriving DecidableEq, Repr

/-- A leaf of the argument tree as dispatched by `fakify`: `None`, a script
object, a tensor, or any other value (rejected with "Only tensors allowed
as input"). -/
inductive ArgLeaf where
  | noneV
  | scriptObj (oid : Nat)
  | tensorV (t : PyTensor)
  | otherV
deriving DecidableEq, Repr

/-- `StatelessSymbolicContext`: per-dimension dynamic markers
(`DimDynamic.DYNAMIC` = `true`, `DimDynamic.STATIC` = `false`) and
per-dimension declared constraint ranges. -/
structure SymbolicContext where
  dynamic_sizes : List Bool
  constraint_sizes : List (Option SymRange)
deriving DecidableEq, Repr

/-- The fake produced by `mode.from_tensor(t, source, symbolic_context)`;
the array engine is external, so the fake records what was passed to it. -/
structure FakeTensor where
  base : PyTensor
  source : Source
  ctx : SymbolicContext
deriving DecidableEq, Repr

/-- A `TrackedFake` entry of the shape environment. -/
structure TrackedFakeEntry where
  fake : FakeTensor
  source : Source
  ctx : SymbolicContext
deriving DecidableEq, Repr

/-- The shape-environment state mutated by `fakify`: the dimension-source
registry keyed by `(t_id, dim)`, the `source_name_to_debug_name` map — keyed
here by the `Source` value itself, since Python keys it by the rendered
`src.name()` string and that rendering is injective on sources — and the
tracked-fake list. -/
structure FakeState where
  sources : List ((Nat × Nat) × Source)
  debugNames : List (Source × String)
  trackedFakes : List TrackedFakeEntry
deriving DecidableEq, Repr

inductive FakifyError where
  | onlyTensorsAllowed
  | constraintIndexOutOfRange
  | sharedSourceKeyError
deriving DecidableEq, Repr

/-- Lines 100-104 of `make_fake_inputs`: register every constraint under its
`(t_id, dim)` and, when `shared` is set, the same constraint object under
the partner's `(shared.t_id, shared.dim)`. The nested `defaultdict(dict)` is
flattened to keys `(t_id, dim)`; the per-tensor dimension iteration order of
`t_constraints[t_id].items()` is the insertion order, preserved here by the
flat dict. -/
def buildTConstraints (cs : List Constraint) :
    List ((Nat × Nat) × Constraint) :=
  cs.foldl
    (fun m c =>
      let m1 := dictInsert m (c.t_id, c.dim) c
      match c.shared with
      | none => m1
      | some s => dictInsert m1 (s.t_id, s.dim) c)
    []

/-- `t_constraints[t_id].items()`: the constrained dimensions of one tensor,
in registration order. -/
def tcsItems (tcs : List ((Nat × Nat) × Constraint)) (tid : Nat) :
    List (Nat × Constraint) :=
  tcs.filterMap (fun kc => if kc.1.1 = tid then some (kc.1.2, kc.2) else none)

/-- The per-dimension updates of the `fakify` loop on the symbolic context:
`symbolic_context.constraint_sizes[i] = constraint.constraint_range` and
`symbolic_context.dynamic_sizes[i] = DimDynamic.DYNAMIC`, starting from the
all-static context of a rank-`n` tensor. -/
def ctxOfItems (n : Nat) (items : List (Nat × Constraint)) : SymbolicContext :=
  items.foldl
    (fun c ic =>
      { dynamic_sizes := c.dynamic_sizes.set ic.1 true,
        constraint_sizes :=
          c.constraint_sizes.set ic.1 (some ic.2.constraint_range) })
    ⟨List.replicate n false, List.replicate n none⟩

/-- The per-dimension updates of the `fakify` loop on the source registry:
`sources[(t_id, i)] = TensorPropertySource(source, SIZE, i)`. -/
def sourcesAfterFakify (tid : Nat) (source : Source)
    (items : List (Nat × Constraint)) (m : List ((Nat × Nat) × Source)) :
    List ((Nat × Nat) × Source) :=
  items.foldl
    (fun m ic =>
      dictInsert m (tid, ic.1) (Source.tensorSizeSource source ic.1))
    m

/-- The per-dimension updates of the `fakify` loop on the debug-name map:
`source_name_to_debug_name[src.name()] = constraint.debug_name`. -/
def debugAfterFakify (source : Source) (items : List (Nat × Constraint))
    (m : List (Source × String)) : List (Source × String) :=
  items.foldl
    (fun m ic =>
      dictInsert m (Source.tensorSizeSource source ic.1) ic.2.debug_name)
    m

/-- `fakify` (lines 53-80): `None` and script objects pass through unfaked;
non-tensors are rejected; a tensor starts from an all-static symbolic
context, and the single per-dimension loop over the tensor's declared
constraints is split here into one fold per mutated state component: it
marks each constrained dimension dynamic with its declared range, registers
the dimension-level source under `(t_id, dim)`, and registers the debug
name under the dimension source. A constrained index beyond the tensor's
rank is a Python `IndexError` on the context lists. Finally the fake is
created and appended to the shape environment's tracked fakes. -/
def fakify (kp : List KeyEntry) (leaf : ArgLeaf)
    (tcs : List ((Nat × Nat) × Constraint)) (st : FakeState) :
    Except FakifyError (Option FakeTensor × FakeState) :=
  let source := key_path_to_source kp
  match leaf with
  | ArgLeaf.noneV => Except.ok (none, st)
  | ArgLeaf.scriptObj _ => Except.ok (none, st)
  | ArgLeaf.otherV => Except.error FakifyError.onlyTensorsAllowed
  | ArgLeaf.tensorV t =>
    let nDims := t.shape.length
    let items := tcsItems tcs t.tid
    if items.any (fun ic => nDims ≤ ic.1) then
      Except.error FakifyError.constraintIndexOutOfRange
    else
      let ctx := ctxOfItems nDims items
      let fake : FakeTensor := ⟨t, source, ctx⟩
      Except.ok (some fake,
        ⟨sourcesAfterFakify t.tid source items st.sources,
         debugAfterFakify source items st.debugNames,
         st.trackedFakes ++ [⟨fake, source, ctx⟩]⟩)

/-- The walk of `tree_map_with_path` over the example arguments: the leaves
are enumerated with their key paths in the stable depth-first walk order,
and `fakify` is applied to each leaf in that order against the shared
shape-environment state. -/
def runFakify (tcs : List ((Nat × Nat) × Constraint)) :
    List (List KeyEntry × ArgLeaf) → FakeState →
    Except FakifyError (List (Option FakeTensor) × FakeState)
  | [], st => Except.ok ([], st)
  | (kp, leaf) :: rest, st =>
    match fakify kp leaf tcs st with
    | Except.error e => Except.error e
    | Except.ok fs =>
      match runFakify tcs rest fs.2 with
      | Except.error e => Except.error e
      | Except.ok r => Except.ok (fs.1 :: r.1, r.2)

/-- Lines 123-130: for every constraint with `shared` set, look up both
sides' registered dimension sources (a missing key is a Python `KeyError`)
and record the source-equality pair, in declaration order. -/
def mkSrcEqualities (sources : List ((Nat × Nat) × Source)) :
    List Constraint → Except FakifyError (List (Source × Source))
  | [] => Except.ok []
  | c :: rest =>
    match c.shared with
    | none => mkSrcEqualities sources rest
    | some s =>
      match assocGet? sources (c.t_id, c.dim),
            assocGet? sources (s.t_id, s.dim) with
      | some a, some b =>
        match mkSrcEqualities sources rest with
        | Except.error e => Except.error e
        | Except.ok r => Except.ok ((a, b) :: r)
      | _, _ => Except.error FakifyError.sharedSourceKeyError

/-- `make_fake_inputs` (lines 93-131): build the constraint registry, fakify
every leaf of the argument tree in walk order against one shared state, then
resolve the source pairs of the shared declarations. Returns the fake
leaves, the source equalities and the final shape-environment state. -/
def make_fake_inputs (leaves : List (List KeyEntry × ArgLeaf))
    (cs : List Constraint) :
    Except FakifyError
      (List (Option FakeTensor) × List (Source × Source) × FakeState) :=
  match runFakify (buildTConstraints cs) leaves ⟨[], [], []⟩ with
  | Except.error e => Except.error e
  | Except.ok r =>
    match mkSrcEqualities r.2.sources cs with
    | Except.error e => Except.error e
    | Except.ok eqs => Except.ok (r.1, eqs, r.2)

theorem mkSrcEqualities_spec (sources : List ((Nat × Nat) × Source)) :
    ∀ (cs : List Constraint) (eqs : List (Source × Source)),
      mkSrcEqualities sources cs = Except.ok eqs →
      eqs.length = (cs.filter (fun c => c.shared.isSome)).length ∧
      (∀ c ∈ cs, ∀ s, c.shared = some s →
        ∃ a b, assocGet? sources (c.t_id, c.dim) = some a ∧
          assocGet? sources (s.t_id, s.dim) = some b ∧ (a, b) ∈ eqs) := by
  intro cs
  induction cs with
  | nil =>
    intro eqs h
    simp [mkSrcEqualities] at h
    subst h
    exact ⟨rfl, by simp⟩
  | cons c rest ih =>
    intro eqs h
    cases hsh : c.shared with
    | none =>
      have h' : mkSrcEqualities sources rest = Except.ok eqs := by
        simpa [mkSrcEqualities, hsh] using h
      obtain ⟨hlen, hmem⟩ := ih eqs h'
      refine ⟨by simpa [hsh] using hlen, ?_⟩
      intro c' hc' s hs
      rcases List.mem_cons.mp hc' with h1 | h2
      · subst h1; rw [hsh] at hs; exact absurd hs (by simp)
      · exact hmem c' h2 s hs
    | some s0 =>
      cases ha : assocGet? sources (c.t_id, c.dim) with
      | none => simp [mkSrcEqualities, hsh, ha] at h
      | some a =>
        cases hb : assocGet? sources (s0.t_id, s0.dim) with
        | none => simp [mkSrcEqualities, hsh, ha, hb] at h
        | some b =>
          cases hrec : mkSrcEqualities sources rest with
          | error e => simp [mkSrcEqualities, hsh, ha, hb, hrec] at h
          | ok r =>
            have heqs : eqs = (a, b) :: r := by
              have := h
              simp [mkSrcEqualities, hsh, ha, hb, hrec] at this
              exact this.symm
            obtain ⟨hlen, hmem⟩ := ih r hrec
            subst heqs
            refine ⟨by simpa [hsh] using congrArg Nat.succ hlen, ?_⟩
            intro c' hc' s hs
            rcases List.mem_cons.mp hc' with h1 | h2
            · subst h1
              rw [hsh] at hs
              obtain rfl : s0 = s := Option.some.inj hs
              exact ⟨a, b, ha, hb, List.mem_cons_self _ _⟩
            · obtain ⟨a', b', h1', h2', h3'⟩ := hmem c' h2 s hs
              exact ⟨a', b', h1', h2', List.mem_cons_of_mem _ h3'⟩

/-- C7: on successful return of `make_fake_inputs`, the source-equality list
has exactly one pair per `shared` declaration, and for every constraint
whose `shared` field is set the list contains the pair of the source
registered for `(t_id, dim)` and the source registered for
`(shared.t_id, shared.dim)`. -/
theorem make_fake_inputs_source_equalities
    (leaves : List (List KeyEntry × ArgLeaf)) (cs : List Constraint)
    (fakes : List (Option FakeTensor)) (eqs : List (Source × Source))
    (st : FakeState)
    (h : make_fake_inputs leaves cs = Except.ok (fakes, eqs, st)) :
    eqs.length = (cs.filter (fun c => c.shared.isSome)).length ∧
    (∀ c ∈ cs, ∀ s, c.shared = some s →
      ∃ a b, assocGet? st.sources (c.t_id, c.dim) = some a ∧
        assocGet? st.sources (s.t_id, s.dim) = some b ∧ (a, b) ∈ eqs) := by
  cases hrun : runFakify (buildTConstraints cs) leaves ⟨[], [], []⟩ with
  | error e => simp [make_fake_inputs, hrun] at h
  | ok r =>
    cases heqs : mkSrcEqualities r.2.sources cs with
    | error e => simp [make_fake_inputs, hrun, heqs] at h
    | ok eqs' =>
      have hinj : r.1 = fakes ∧ eqs' = eqs ∧ r.2 = st := by
        have := h
        simp [make_fake_inputs, hrun, heqs] at this
        exact ⟨this.1, this.2.1, this.2.2⟩
      obtain ⟨h1, h2, h3⟩ := hinj
      subst h2
      rw [← h3]
      exact mkSrcEqualities_spec r.2.sources cs eqs' heqs

/-- Dimension-0 source of the first example input `args[0]`. -/
def exSrcArg0 : Source :=
  Source.tensorSizeSource (Source.getItemIdx (Source.localSource "args") 0) 0

/-- Dimension-0 source of the second example input `args[1]`. -/
def exSrcArg1 : Source :=
  Source.tensorSizeSource (Source.getItemIdx (Source.localSource "args") 1) 0

/-- Symbolic context of the shared example inputs: dimension 0 dynamic in
range 1..10. -/
def exSharedCtx : SymbolicContext := ⟨[true], [some ⟨1, 10⟩]⟩

/-- The fake of the first example input. -/
def exFake0 : FakeTensor :=
  ⟨⟨1, [5]⟩, Source.getItemIdx (Source.localSource "args") 0, exSharedCtx⟩

/-- The fake of the second example input. -/
def exFake1 : FakeTensor :=
  ⟨⟨2, [5]⟩, Source.getItemIdx (Source.localSource "args") 1, exSharedCtx⟩

/-- The final shape-environment state of the shared example. -/
def exSharedState : FakeState :=
  ⟨[((1, 0), exSrcArg0), ((2, 0), exSrcArg1)],
   [(exSrcArg0, "L"), (exSrcArg1, "L")],
   [⟨exFake0, exFake0.source, exSharedCtx⟩,
    ⟨exFake1, exFake1.source, exSharedCtx⟩]⟩

/-- Witness for C7: two tensors whose dimension 0 is declared shared produce
exactly the pair of their registered dimension-0 sources. -/
theorem make_fake_inputs_source_equalities_witness :
    ∃ a b, assocGet? exSharedState.sources (1, 0) = some a ∧
      assocGet? exSharedState.sources (2, 0) = some b ∧
      (a, b) ∈ [(exSrcArg0, exSrcArg1)] :=
  (make_fake_inputs_source_equalities
    [([KeyEntry.seq 0], ArgLeaf.tensorV ⟨1, [5]⟩),
     ([KeyEntry.seq 1], ArgLeaf.tensorV ⟨2, [5]⟩)]
    [⟨1, 0, ⟨1, 10⟩, some ⟨2, 0⟩, "L"⟩]
    [some exFake0, some exFake1] [(exSrcArg0, exSrcArg1)] exSharedState
    rfl).2
    ⟨1, 0, ⟨1, 10⟩, some ⟨2, 0⟩, "L"⟩ (List.mem_singleton.mpr rfl)
    ⟨2, 0⟩ rfl

/-- The dict keys a single constraint registers in `t_constraints`: its own
`(t_id, dim)` and, when shared, the partner's `(shared.t_id, shared.dim)`. -/
def keysOf (c : Constraint) : List (Nat × Nat) :=
  (c.t_id, c.dim) ::
    (match c.shared with
     | none => []
     | some s => [(s.t_id, s.dim)])

/-- One iteration of the registration loop of `make_fake_inputs`. -/
def buildStep (m : List ((Nat × Nat) × Constraint)) (c : Constraint) :
    List ((Nat × Nat) × Constraint) :=
  let m1 := dictInsert m (c.t_id, c.dim) c
  match c.shared with
  | none => m1
  | some s => dictInsert m1 (s.t_id, s.dim) c

theorem buildTConstraints_eq (cs : List Constraint) :
    buildTConstraints cs = cs.foldl buildStep [] := rfl

theorem assocGet?_buildStep (m : List ((Nat × Nat) × Constraint))
    (c : Constraint) (k : Nat × Nat) :
    assocGet? (buildStep m c) k =
      if k ∈ keysOf c then some c else assocGet? m k := by
  cases hsh : c.shared with
  | none =>
    by_cases hk : (c.t_id, c.dim) = k
    · simp [buildStep, hsh, assocGet?_dictInsert, keysOf, hk]
    · have hk' : ¬ k ∈ keysOf c := by
        simp [keysOf, hsh]
        exact fun h => hk h.symm
      simp [buildStep, hsh, assocGet?_dictInsert, hk, hk']
  | some s =>
    by_cases hk2 : (s.t_id, s.dim) = k
    · have hk' : k ∈ keysOf c := by
        simp [keysOf, hsh, hk2.symm]
      simp [buildStep, hsh, assocGet?_dictInsert, hk2, hk']
    · by_cases hk1 : (c.t_id, c.dim) = k
      · have hk' : k ∈ keysOf c := by
          simp [keysOf, hsh, hk1.symm]
        simp [buildStep, hsh, assocGet?_dictInsert, hk1, hk2, hk']
      · have hk' : ¬ k ∈ keysOf c := by
          simp [keysOf, hsh]
          exact ⟨fun h => hk1 h.symm, fun h => hk2 h.symm⟩
        simp [buildStep, hsh, assocGet?_dictInsert, hk1, hk2, hk']

theorem buildT_lookup_aux (k : Nat × Nat) (c : Constraint)
    (cs : List Constraint) :
    ∀ (m : List ((Nat × Nat) × Constraint)),
      (∀ c' ∈ cs, k ∈ keysOf c' → c' = c) →
      ((c ∈ cs ∧ k ∈ keysOf c) ∨ assocGet? m k = some c) →
      assocGet? (cs.foldl buildStep m) k = some c := by
  induction cs with
  | nil =>
    rintro m _ (⟨h, _⟩ | hm)
    · simp at h
    · exact hm
  | cons c0 rest ih =>
    rintro m huniq hstart
    rw [List.foldl_cons]
    refine ih (buildStep m c0)
      (fun c' hc' => huniq c' (List.mem_cons_of_mem _ hc')) ?_
    by_cases hk0 : k ∈ keysOf c0
    · have hc0 : c0 = c := huniq c0 (List.mem_cons_self _ _) hk0
      subst hc0
      right
      rw [assocGet?_buildStep]
      simp [hk0]
    · rcases hstart with ⟨hc, hkc⟩ | hm
      · rcases List.mem_cons.mp hc with h1 | h2
        · exact absurd (h1 ▸ hkc) hk0
        · exact Or.inl ⟨h2, hkc⟩
      · right
        rw [assocGet?_buildStep]
        simp [hk0, hm]

theorem buildTConstraints_lookup (cs : List Constraint) (c : Constraint)
    (k : Nat × Nat) (hc : c ∈ cs) (hk : k ∈ keysOf c)
    (huniq : ∀ c' ∈ cs, k ∈ keysOf c' → c' = c) :
    assocGet? (buildTConstraints cs) k = some c := by
  rw [buildTConstraints_eq]
  exact buildT_lookup_aux k c cs [] huniq (Or.inl ⟨hc, hk⟩)

theorem mem_keys_dictInsert {K V : Type} [DecidableEq K]
    (m : List (K × V)) (k k' : K) (v : V)
    (h : k' ∈ (dictInsert m k v).map Prod.fst) :
    k' ∈ m.map Prod.fst ∨ k' = k := by
  induction m with
  | nil =>
    simp [dictInsert] at h
    exact Or.inr h
  | cons p rest ih =>
    obtain ⟨k0, v0⟩ := p
    by_cases h0 : k0 = k
    · subst h0
      rw [show dictInsert ((k0, v0) :: rest) k0 v = (k0, v) :: rest from by
        simp [dictInsert]] at h
      rw [List.map_cons, List.mem_cons] at h
      rcases h with h1 | h2
      · exact Or.inr h1
      · exact Or.inl (by rw [List.map_cons, List.mem_cons]; exact Or.inr h2)
    · rw [show dictInsert ((k0, v0) :: rest) k v =
          (k0, v0) :: dictInsert rest k v from by simp [dictInsert, h0]] at h
      rw [List.map_cons, List.mem_cons] at h
      rcases h with h1 | h2
      · exact Or.inl (by rw [List.map_cons, List.mem_cons]; exact Or.inl h1)
      · rcases ih h2 with h3 | h4
        · exact Or.inl (by rw [List.map_cons, List.mem_cons]; exact Or.inr h3)
        · exact Or.inr h4

theorem dictInsert_keys_nodup {K V : Type} [DecidableEq K]
    (m : List (K × V)) (k : K) (v : V)
    (h : (m.map Prod.fst).Nodup) :
    ((dictInsert m k v).map Prod.fst).Nodup := by
  induction m with
  | nil => simp [dictInsert]
  | cons p rest ih =>
    obtain ⟨k0, v0⟩ := p
    rw [List.map_cons, List.nodup_cons] at h
    by_cases h0 : k0 = k
    · subst h0
      rw [show dictInsert ((k0, v0) :: rest) k0 v = (k0, v) :: rest from by
        simp [dictInsert]]
      rw [List.map_cons, List.nodup_cons]
      exact h
    · rw [show dictInsert ((k0, v0) :: rest) k v =
          (k0, v0) :: dictInsert rest k v from by simp [dictInsert, h0]]
      rw [List.map_cons, List.nodup_cons]
      refine ⟨?_, ih h.2⟩
      intro hmem
      rcases mem_keys_dictInsert rest k k0 v hmem with h1 | h2
      · exact h.1 h1
      · exact h0 h2

theorem buildStep_keys_nodup (m : List ((Nat × Nat) × Constraint))
    (c : Constraint) (h : (m.map Prod.fst).Nodup) :
    ((buildStep m c).map Prod.fst).Nodup := by
  cases hsh : c.shared with
  | none =>
    simpa [buildStep, hsh] using dictInsert_keys_nodup m (c.t_id, c.dim) c h
  | some s =>
    simp only [buildStep, hsh]
    exact dictInsert_keys_nodup _ _ _ (dictInsert_keys_nodup m _ _ h)

theorem buildTConstraints_keys_nodup (cs : List Constraint) :
    ((buildTConstraints cs).map Prod.fst).Nodup := by
  rw [buildTConstraints_eq]
  suffices h : ∀ m : List ((Nat × Nat) × Constraint),
      (m.map Prod.fst).Nodup → ((cs.foldl buildStep m).map Prod.fst).Nodup by
    exact h [] (by simp)
  induction cs with
  | nil => intro m hm; exact hm
  | cons c0 rest ih =>
    intro m hm
    exact ih _ (buildStep_keys_nodup m c0 hm)

theorem tcsItems_cons_pos (kc : (Nat × Nat) × Constraint)
    (rest : List ((Nat × Nat) × Constraint)) (tid : Nat)
    (h : kc.1.1 = tid) :
    tcsItems (kc :: rest) tid = (kc.1.2, kc.2) :: tcsItems rest tid := by
  simp [tcsItems, h]

theorem tcsItems_cons_neg (kc : (Nat × Nat) × Constraint)
    (rest : List ((Nat × Nat) × Constraint)) (tid : Nat)
    (h : ¬ kc.1.1 = tid) :
    tcsItems (kc :: rest) tid = tcsItems rest tid := by
  simp [tcsItems, h]

theorem tcsItems_fst_mem (tcs : List ((Nat × Nat) × Constraint))
    (tid : Nat) :
    ∀ d, d ∈ (tcsItems tcs tid).map Prod.fst →
      (tid, d) ∈ tcs.map Prod.fst := by
  induction tcs with
  | nil => intro d h; simp [tcsItems] at h
  | cons kc rest ih =>
    intro d h
    by_cases h0 : kc.1.1 = tid
    · rw [tcsItems_cons_pos kc rest tid h0, List.map_cons, List.mem_cons] at h
      rcases h with h1 | h2
      · rw [List.map_cons, List.mem_cons]
        left
        obtain ⟨⟨a, b⟩, c0⟩ := kc
        simp at h0 h1
        simp [h0, h1]
      · exact List.mem_cons_of_mem _ (ih d h2)
    · rw [tcsItems_cons_neg kc rest tid h0] at h
      exact List.mem_cons_of_mem _ (ih d h)

theorem tcsItems_fst_nodup (tcs : List ((Nat × Nat) × Constraint))
    (tid : Nat) (h : (tcs.map Prod.fst).Nodup) :
    ((tcsItems tcs tid).map Prod.fst).Nodup := by
  induction tcs with
  | nil => simp [tcsItems]
  | cons kc rest ih =>
    rw [List.map_cons, List.nodup_cons] at h
    by_cases h0 : kc.1.1 = tid
    · rw [tcsItems_cons_pos kc rest tid h0, List.map_cons, List.nodup_cons]
      refine ⟨?_, ih h.2⟩
      intro hmem
      have hm2 := tcsItems_fst_mem rest tid kc.1.2 hmem
      apply h.1
      have hk : kc.1 = (tid, kc.1.2) := by
        obtain ⟨⟨a, b⟩, c0⟩ := kc
        simp at h0
        simp [h0]
      rw [hk]
      exact hm2
    · rw [tcsItems_cons_neg kc rest tid h0]
      exact ih h.2

theorem tcsItems_mem_of_lookup (tcs : List ((Nat × Nat) × Constraint))
    (tid d : Nat) (c : Constraint)
    (ht : assocGet? tcs (tid, d) = some c) :
    (d, c) ∈ tcsItems tcs tid := by
  have hmem := assocGet?_mem _ _ _ ht
  apply List.mem_filterMap.mpr
  exact ⟨((tid, d), c), hmem, by simp⟩

theorem ctxFold_preserve :
    ∀ (items : List (Nat × Constraint)) (c0 : SymbolicContext) (d : Nat),
      (∀ p ∈ items, p.1 ≠ d) →
      ((items.foldl
          (fun c ic =>
            { dynamic_sizes := c.dynamic_sizes.set ic.1 true,
              constraint_sizes :=
                c.constraint_sizes.set ic.1 (some ic.2.constraint_range) })
          c0).dynamic_sizes[d]? = c0.dynamic_sizes[d]? ∧
       (items.foldl
          (fun c ic =>
            { dynamic_sizes := c.dynamic_sizes.set ic.1 true,
              constraint_sizes :=
                c.constraint_sizes.set ic.1 (some ic.2.constraint_range) })
          c0).constraint_sizes[d]? = c0.constraint_sizes[d]?) := by
  intro items
  induction items with
  | nil => intro c0 d _; exact ⟨rfl, rfl⟩
  | cons ic rest ih =>
    intro c0 d h
    have hne : ic.1 ≠ d := h ic (List.mem_cons_self _ _)
    have := ih
      ⟨c0.dynamic_sizes.set ic.1 true,
       c0.constraint_sizes.set ic.1 (some ic.2.constraint_range)⟩ d
      (fun p hp => h p (List.mem_cons_of_mem _ hp))
    rw [List.foldl_cons]
    refine ⟨this.1.trans ?_, this.2.trans ?_⟩
    · exact List.getElem?_set_ne hne
    · exact List.getElem?_set_ne hne

theorem ctxFold_get :
    ∀ (items : List (Nat × Constraint)) (c0 : SymbolicContext) (d : Nat)
      (c : Constraint),
      (items.map Prod.fst).Nodup → (d, c) ∈ items →
      d < c0.dynamic_sizes.length → d < c0.constraint_sizes.length →
      ((items.foldl
          (fun c ic =>
            { dynamic_sizes := c.dynamic_sizes.set ic.1 true,
              constraint_sizes :=
                c.constraint_sizes.set ic.1 (some ic.2.constraint_range) })
          c0).dynamic_sizes[d]? = some true ∧
       (items.foldl
          (fun c ic =>
            { dynamic_sizes := c.dynamic_sizes.set ic.1 true,
              constraint_sizes :=
                c.constraint_sizes.set ic.1 (some ic.2.constraint_range) })
          c0).constraint_sizes[d]? = some (some c.constraint_range)) := by
  intro items
  induction items with
  | nil => intro c0 d c _ hmem; simp at hmem
  | cons ic rest ih =>
    intro c0 d c hnodup hmem hd1 hd2
    rw [List.map_cons, List.nodup_cons] at hnodup
    rw [List.foldl_cons]
    rcases List.mem_cons.mp hmem with h1 | h2
    · have hic1 : ic.1 = d := by rw [← h1]
      have hic2 : ic.2 = c := by rw [← h1]
      have hrest : ∀ p ∈ rest, p.1 ≠ d := by
        intro p hp hpd
        apply hnodup.1
        rw [hic1, ← hpd]
        exact List.mem_map_of_mem Prod.fst hp
      have hpres := ctxFold_preserve rest
        ⟨c0.dynamic_sizes.set ic.1 true,
         c0.constraint_sizes.set ic.1 (some ic.2.constraint_range)⟩ d hrest
      refine ⟨hpres.1.trans ?_, hpres.2.trans ?_⟩
      · rw [hic1]
        exact List.getElem?_set_eq_of_lt true hd1
      · rw [hic1, hic2]
        exact List.getElem?_set_eq_of_lt (some c.constraint_range) hd2
    · have hne : ic.1 ≠ d := by
        intro hpd
        apply hnodup.1
        rw [hpd]
        exact List.mem_map_of_mem Prod.fst (by exact h2 : (d, c) ∈ rest)
      exact ih
        ⟨c0.dynamic_sizes.set ic.1 true,
         c0.constraint_sizes.set ic.1 (some ic.2.constraint_range)⟩ d c
        hnodup.2 h2 (by simpa using hd1) (by simpa using hd2)

theorem ctxOfItems_get (n : Nat) (items : List (Nat × Constraint))
    (d : Nat) (c : Constraint)
    (hnodup : (items.map Prod.fst).Nodup) (hmem : (d, c) ∈ items)
    (hd : d < n) :
    (ctxOfItems n items).dynamic_sizes[d]? = some true ∧
    (ctxOfItems n items).constraint_sizes[d]? =
      some (some c.constraint_range) := by
  have := ctxFold_get items ⟨List.replicate n false, List.replicate n none⟩
    d c hnodup hmem (by simpa using hd) (by simpa using hd)
  exact this

theorem debugFold_preserve (source : Source) :
    ∀ (items : List (Nat × Constraint)) (m : List (Source × String))
      (d : Nat),
      (∀ p ∈ items, p.1 ≠ d) →
      assocGet? (debugAfterFakify source items m)
          (Source.tensorSizeSource source d) =
        assocGet? m (Source.tensorSizeSource source d) := by
  intro items
  induction items with
  | nil => intro m d _; rfl
  | cons ic rest ih =>
    intro m d h
    have hne : ic.1 ≠ d := h ic (List.mem_cons_self _ _)
    have hkey : ¬ (Source.tensorSizeSource source ic.1 =
        Source.tensorSizeSource source d) := by
      simp [hne]
    rw [show debugAfterFakify source (ic :: rest) m =
        debugAfterFakify source rest
          (dictInsert m (Source.tensorSizeSource source ic.1)
            ic.2.debug_name) from rfl]
    rw [ih _ d (fun p hp => h p (List.mem_cons_of_mem _ hp))]
    rw [assocGet?_dictInsert]
    simp [hkey]

theorem debugFold_get (source : Source) :
    ∀ (items : List (Nat × Constraint)) (m : List (Source × String))
      (d : Nat) (c : Constraint),
      (items.map Prod.fst).Nodup → (d, c) ∈ items →
      assocGet? (debugAfterFakify source items m)
          (Source.tensorSizeSource source d) = some c.debug_name := by
  intro items
  induction items with
  | nil => intro m d c _ hmem; simp at hmem
  | cons ic rest ih =>
    intro m d c hnodup hmem
    rw [List.map_cons, List.nodup_cons] at hnodup
    rcases List.mem_cons.mp hmem with h1 | h2
    · have hic1 : ic.1 = d := by rw [← h1]
      have hic2 : ic.2 = c := by rw [← h1]
      have hrest : ∀ p ∈ rest, p.1 ≠ d := by
        intro p hp hpd
        apply hnodup.1
        rw [hic1, ← hpd]
        exact List.mem_map_of_mem Prod.fst hp
      rw [show debugAfterFakify source (ic :: rest) m =
          debugAfterFakify source rest
            (dictInsert m (Source.tensorSizeSource source ic.1)
              ic.2.debug_name) from rfl]
      rw [debugFold_preserve source rest _ d hrest]
      rw [assocGet?_dictInsert]
      simp [hic1, hic2]
    · have hne : ic.1 ≠ d := by
        intro hpd
        apply hnodup.1
        rw [hpd]
        exact List.mem_map_of_mem Prod.fst (by exact h2 : (d, c) ∈ rest)
      rw [show debugAfterFakify source (ic :: rest) m =
          debugAfterFakify source rest
            (dictInsert m (Source.tensorSizeSource source ic.1)
              ic.2.debug_name) from rfl]
      exact ih _ d c hnodup.2 h2

theorem fakify_tensor_eq (kp : List KeyEntry) (t : PyTensor)
    (tcs : List ((Nat × Nat) × Constraint)) (st : FakeState) :
    fakify kp (ArgLeaf.tensorV t) tcs st =
      (if (tcsItems tcs t.tid).any (fun ic => t.shape.length ≤ ic.1) then
        Except.error FakifyError.constraintIndexOutOfRange
      else
        Except.ok (some ⟨t, key_path_to_source kp,
            ctxOfItems t.shape.length (tcsItems tcs t.tid)⟩,
          ⟨sourcesAfterFakify t.tid (key_path_to_source kp)
              (tcsItems tcs t.tid) st.sources,
           debugAfterFakify (key_path_to_source kp) (tcsItems tcs t.tid)
              st.debugNames,
           st.trackedFakes ++ [⟨⟨t, key_path_to_source kp,
              ctxOfItems t.shape.length (tcsItems tcs t.tid)⟩,
              key_path_to_source kp,
              ctxOfItems t.shape.length (tcsItems tcs t.tid)⟩]⟩)) := rfl

/-- C9: a constraint whose `shared` field is set is registered in the
constraint registry under both its own `(t_id, dim)` and the partner's
`(shared.t_id, shared.dim)` — provided no other declaration targets those
keys — so fakifying the partner tensor (which may carry no declaration of
its own) marks the partner dimension dynamic with the identical declared
constraint range, and registers the identical debug name under the partner
dimension's source. -/
theorem shared_constraint_registered_both (cs : List Constraint)
    (c : Constraint) (s : SharedDim) (t : PyTensor) (kp : List KeyEntry)
    (st : FakeState) (fake : FakeTensor) (st' : FakeState)
    (hc : c ∈ cs) (hs : c.shared = some s)
    (huniq1 : ∀ c' ∈ cs, (c.t_id, c.dim) ∈ keysOf c' → c' = c)
    (huniq2 : ∀ c' ∈ cs, (s.t_id, s.dim) ∈ keysOf c' → c' = c)
    (ht : t.tid = s.t_id) (hd : s.dim < t.shape.length)
    (hf : fakify kp (ArgLeaf.tensorV t) (buildTConstraints cs) st =
      Except.ok (some fake, st')) :
    assocGet? (buildTConstraints cs) (c.t_id, c.dim) = some c ∧
    assocGet? (buildTConstraints cs) (s.t_id, s.dim) = some c ∧
    fake.ctx.dynamic_sizes[s.dim]? = some true ∧
    fake.ctx.constraint_sizes[s.dim]? = some (some c.constraint_range) ∧
    assocGet? st'.debugNames
      (Source.tensorSizeSource (key_path_to_source kp) s.dim) =
      some c.debug_name := by
  have hl1 : assocGet? (buildTConstraints cs) (c.t_id, c.dim) = some c :=
    buildTConstraints_lookup cs c _ hc (by simp [keysOf]) huniq1
  have hl2 : assocGet? (buildTConstraints cs) (s.t_id, s.dim) = some c :=
    buildTConstraints_lookup cs c _ hc (by simp [keysOf, hs]) huniq2
  have hmemItems : (s.dim, c) ∈ tcsItems (buildTConstraints cs) t.tid := by
    apply tcsItems_mem_of_lookup
    rw [ht]
    exact hl2
  have hnodup : ((tcsItems (buildTConstraints cs) t.tid).map Prod.fst).Nodup :=
    tcsItems_fst_nodup _ _ (buildTConstraints_keys_nodup cs)
  rw [fakify_tensor_eq] at hf
  cases hany : (tcsItems (buildTConstraints cs) t.tid).any
      (fun ic => t.shape.length ≤ ic.1) with
  | true =>
    rw [if_pos (by rw [hany])] at hf
    exact absurd hf (by simp)
  | false =>
    rw [if_neg (by rw [hany]; simp)] at hf
    have hinj := Except.ok.inj hf
    have hfake : fake = ⟨t, key_path_to_source kp,
        ctxOfItems t.shape.length (tcsItems (buildTConstraints cs) t.tid)⟩ :=
      (Option.some.inj (congrArg Prod.fst hinj)).symm
    have hst : st' = ⟨sourcesAfterFakify t.tid (key_path_to_source kp)
        (tcsItems (buildTConstraints cs) t.tid) st.sources,
      debugAfterFakify (key_path_to_source kp)
        (tcsItems (buildTConstraints cs) t.tid) st.debugNames,
      st.trackedFakes ++ [⟨⟨t, key_path_to_source kp,
        ctxOfItems t.shape.length (tcsItems (buildTConstraints cs) t.tid)⟩,
        key_path_to_source kp,
        ctxOfItems t.shape.length (tcsItems (buildTConstraints cs) t.tid)⟩]⟩ :=
      (congrArg Prod.snd hinj).symm
    have hctx := ctxOfItems_get t.shape.length
      (tcsItems (buildTConstraints cs) t.tid) s.dim c hnodup hmemItems hd
    refine ⟨hl1, hl2, ?_, ?_, ?_⟩
    · rw [hfake]
      exact hctx.1
    · rw [hfake]
      exact hctx.2
    · rw [hst]
      exact debugFold_get (key_path_to_source kp)
        (tcsItems (buildTConstraints cs) t.tid) st.debugNames s.dim c
        hnodup hmemItems

/-- The single shared declaration of the C9 example: dimension 0 of tensor 1
is dynamic in 2..20, shared with dimension 0 of tensor 2, debug name "B". -/
def exSharedConstraint : Constraint := ⟨1, 0, ⟨2, 20⟩, some ⟨2, 0⟩, "B"⟩

/-- The partner tensor of the C9 example (identity 2, shape 7 by 4), which
carries no declaration of its own. -/
def exPartnerTensor : PyTensor := ⟨2, [7, 4]⟩

/-- Symbolic context the partner tensor receives during fakification. -/
def exPartnerCtx : SymbolicContext := ⟨[true, false], [some ⟨2, 20⟩, none]⟩

/-- The source of the partner tensor (second positional argument). -/
def exPartnerSource : Source := Source.getItemIdx (Source.localSource "args") 1

/-- The fake of the partner tensor. -/
def exPartnerFake : FakeTensor :=
  ⟨exPartnerTensor, exPartnerSource, exPartnerCtx⟩

/-- The shape-environment state after fakifying the partner tensor. -/
def exPartnerState : FakeState :=
  ⟨[((2, 0), Source.tensorSizeSource exPartnerSource 0)],
   [(Source.tensorSizeSource exPartnerSource 0, "B")],
   [⟨exPartnerFake, exPartnerSource, exPartnerCtx⟩]⟩

/-- Witness for C9: the shared declaration is registered under both keys,
and the partner tensor's dimension 0 comes out dynamic with range 2..20 and
debug name "B" although it has no declaration of its own. -/
theorem shared_constraint_registered_both_witness :
    assocGet? (buildTConstraints [exSharedConstraint]) (1, 0) =
      some exSharedConstraint ∧
    assocGet? (buildTConstraints [exSharedConstraint]) (2, 0) =
      some exSharedConstraint ∧
    exPartnerFake.ctx.dynamic_sizes[0]? = some true ∧
    exPartnerFake.ctx.constraint_sizes[0]? = some (some ⟨2, 20⟩) ∧
    assocGet? exPartnerState.debugNames
      (Source.tensorSizeSource (key_path_to_source [KeyEntry.seq 1]) 0) =
      some "B" :=
  shared_constraint_registered_both [exSharedConstraint] exSharedConstraint
    ⟨2, 0⟩ exPartnerTensor [KeyEntry.seq 1] ⟨[], [], []⟩
    exPartnerFake exPartnerState
    (List.mem_singleton.mpr rfl) rfl
    (by intro c' hc' _; simpa using hc')
    (by intro c' hc' _; simpa using hc')
    rfl (by decide) rfl
